import Mathlib

/-!
# Verification of the wisp-explorer virtual filesystem and service worker

This development shallowly embeds the core data model and algorithms of the
wisp-explorer client (TypeScript) in Lean 4 and proves properties of them:

* the wisp filesystem tree (`WispFile`, `WispDirectory` from
  `src/types/lexicon.ts`), modelling JavaScript `Record<string, T>` objects
  as association lists with first-match lookup (JavaScript objects have
  unique keys; insertion order is retained by the list),
* `mergeDirectories`, `normalizePath` and `lookupPath` from
  `src/types/lexicon.ts`,
* the service worker (`sw.js`): its own `normalizePath`, `lookupFile`,
  `fetchBlobFromPDS` (blob cache), `injectOverlayScript` and `handleMessage`,
* the retry utility `withRetry` from `src/utils/retry.ts`.

Strings are handled at the level of their character lists (`String.data`),
which matches JavaScript's per-character string operations.
-/

namespace Wisp

/-! ## Association lists standing in for JavaScript objects -/

/-- First-match lookup in an association list; embeds JavaScript property
access `obj[key]` (JavaScript object keys are unique, so first match is the
only match). -/
def alookup (k : String) : List (String × α) → Option α
  | [] => none
  | (k', v) :: rest => if k' = k then some v else alookup k rest

/-- Embeds the JavaScript object spread `{...xs, ...ys}`: keys of `xs` keep
their position but take `ys`'s value when `ys` also binds them; keys only in
`ys` are appended in `ys`'s order. -/
def spreadF (xs ys : List (String × α)) : List (String × α) :=
  xs.map (fun p => (p.1, (alookup p.1 ys).getD p.2)) ++
    ys.filter (fun p => (alookup p.1 xs).isNone)

@[simp] theorem alookup_nil (k : String) : alookup k ([] : List (String × α)) = none := rfl

@[simp] theorem alookup_cons (k k' : String) (v : α) (rest : List (String × α)) :
    alookup k ((k', v) :: rest) = if k' = k then some v else alookup k rest := rfl

theorem alookup_append (k : String) (xs ys : List (String × α)) :
    alookup k (xs ++ ys) = (alookup k xs).orElse (fun _ => alookup k ys) := by
  induction xs with
  | nil => simp
  | cons p rest ih =>
    obtain ⟨k', v⟩ := p
    by_cases h : k' = k <;> simp [h, ih]

theorem alookup_spread_mapped (k : String) (xs ys : List (String × α)) :
    alookup k (xs.map (fun p => (p.1, (alookup p.1 ys).getD p.2))) =
      (alookup k xs).map (fun v => (alookup k ys).getD v) := by
  induction xs with
  | nil => simp
  | cons p rest ih =>
    obtain ⟨k', v⟩ := p
    by_cases h : k' = k
    · subst h; simp
    · simp [h, ih]

theorem alookup_filter_key (k : String) (q : String → Bool) (xs : List (String × α)) :
    alookup k (xs.filter (fun p => q p.1)) =
      if q k then alookup k xs else alookup k (xs.filter (fun p => q p.1)) := by
  by_cases h : q k
  · simp only [h, if_true]
    induction xs with
    | nil => simp
    | cons p rest ih =>
      obtain ⟨k', v⟩ := p
      by_cases hk : k' = k
      · subst hk; simp [List.filter, h]
      · by_cases hq : q k' <;> simp [List.filter, hq, hk, ih]
  · simp [h]

/-- Lookup in a key-filtered list when the key itself passes the filter. -/
theorem alookup_filter_key_pos (k : String) (q : String → Bool) (xs : List (String × α))
    (h : q k = true) :
    alookup k (xs.filter (fun p => q p.1)) = alookup k xs := by
  have := alookup_filter_key k q xs
  simpa [h] using this

/-- Lookup in a key-filtered list when the key itself fails the filter. -/
theorem alookup_filter_key_neg (k : String) (q : String → Bool) (xs : List (String × α))
    (h : q k = false) :
    alookup k (xs.filter (fun p => q p.1)) = none := by
  induction xs with
  | nil => simp
  | cons p rest ih =>
    obtain ⟨k', v⟩ := p
    by_cases hk : k' = k
    · subst hk; simp [List.filter, h, ih]
    · by_cases hq : q k' <;> simp [List.filter, hq, hk, ih]

/-- Lookup after a spread: the right-hand object wins. -/
theorem alookup_spreadF (k : String) (xs ys : List (String × α)) :
    alookup k (spreadF xs ys) = (alookup k ys).orElse (fun _ => alookup k xs) := by
  unfold spreadF
  rw [alookup_append, alookup_spread_mapped]
  cases hx : alookup k xs with
  | none =>
    rw [alookup_filter_key_pos k (fun k' => (alookup k' xs).isNone) ys (by simp [hx])]
    cases alookup k ys <;> simp [hx, Option.orElse]
  | some v =>
    rw [alookup_filter_key_neg k (fun k' => (alookup k' xs).isNone) ys (by simp [hx])]
    cases hy : alookup k ys <;> simp [hx, hy, Option.orElse]

/-! ## The wisp filesystem tree (src/types/lexicon.ts) -/

/-- `WispFile` (lexicon.ts): `cid`, optional `mimeType`, optional `size`. -/
structure WispFile where
  cid : String
  mimeType : Option String
  size : Option Nat
deriving DecidableEq, Repr

/-- `WispDirectory` (lexicon.ts): optional `files` and `dirs` maps.  The
`Option` distinguishes an absent map from a present-but-empty one, exactly as
a JavaScript object may lack the property. -/
inductive WispDirectory where
  | mk (files : Option (List (String × WispFile))) (dirs : Option (List (String × WispDirectory)))
deriving Repr

/-- The `files` component. -/
def WispDirectory.files : WispDirectory → Option (List (String × WispFile))
  | .mk f _ => f

/-- The `dirs` component. -/
def WispDirectory.dirs : WispDirectory → Option (List (String × WispDirectory))
  | .mk _ d => d

/-- The `files` map, defaulting to empty (JavaScript `dir.files || {}`). -/
def WispDirectory.filesL (d : WispDirectory) : List (String × WispFile) :=
  d.files.getD []

/-- The `dirs` map, defaulting to empty (JavaScript `dir.dirs || {}`). -/
def WispDirectory.dirsL (d : WispDirectory) : List (String × WispDirectory) :=
  d.dirs.getD []

@[simp] theorem WispDirectory.files_mk (f) (d) : (WispDirectory.mk f d).files = f := rfl
@[simp] theorem WispDirectory.dirs_mk (f) (d) : (WispDirectory.mk f d).dirs = d := rfl

/-- Combination of the two `files` maps of `mergeDirectories`: the loop body
executes `result.files = { ...result.files, ...dir.files }` only when
`dir.files` is truthy, and spreading into an absent map copies. -/
def combineFilesOpt :
    Option (List (String × WispFile)) → Option (List (String × WispFile)) →
      Option (List (String × WispFile))
  | none, none => none
  | some xs, none => some xs
  | none, some ys => some ys
  | some xs, some ys => some (spreadF xs ys)

theorem alookup_some_size_lt (k : String) (ys : List (String × WispDirectory)) (w : WispDirectory)
    (h : Wisp.alookup k ys = some w) : sizeOf w < sizeOf ys := by
  induction ys with
  | nil => simp [Wisp.alookup] at h
  | cons p rest ih =>
    obtain ⟨k', v⟩ := p
    simp only [Wisp.alookup] at h
    split at h
    · cases h
      simp only [List.cons.sizeOf_spec, Prod.mk.sizeOf_spec]
      omega
    · have := ih h
      simp only [List.cons.sizeOf_spec]
      omega

theorem alookup_size_le (k : String) (ys : List (String × WispDirectory)) :
    sizeOf (Wisp.alookup k ys) ≤ 1 + sizeOf ys := by
  cases h : Wisp.alookup k ys with
  | none => simp_arith
  | some w =>
    have := alookup_some_size_lt k ys w h
    simp_arith
    omega

mutual

/-- `mergeDirectories` (lexicon.ts, lines 426-454) specialised to two
directories, which is the shape of its recursive self-call
`mergeDirectories(result.dirs[name], subDir)`.  Files are combined by object
spread (`combineFilesOpt`); for `dirs`, each entry of the second map either
recursively merges into an existing entry of the first (`mapMergeDirs`, in
place) or is appended (`List.filter` keeps the second map's fresh names in
order). -/
def merge2 : WispDirectory → WispDirectory → WispDirectory
  | .mk f1 d1, .mk f2 d2 =>
    .mk (combineFilesOpt f1 f2)
      (match d1, d2 with
       | none, none => none
       | some xs, none => some xs
       | none, some ys => some ys
       | some xs, some ys =>
         some (mapMergeDirs xs ys ++ ys.filter (fun p => (Wisp.alookup p.1 xs).isNone)))
termination_by a b => sizeOf a + sizeOf b
decreasing_by
  all_goals simp_arith [WispDirectory.mk.sizeOf_spec]

/-- The branch of the `dirs` loop of `mergeDirectories` on one name: merge
into the accumulator's existing subtree if there is one, else keep. -/
def mergeInto (v : WispDirectory) : Option WispDirectory → WispDirectory
  | some w => merge2 v w
  | none => v
termination_by o => sizeOf v + sizeOf o
decreasing_by
  simp_arith

/-- The in-place part of the `dirs` loop of `mergeDirectories`: every entry
of `xs` whose name also occurs in `ys` is replaced by the recursive merge of
the two subtrees. -/
def mapMergeDirs :
    List (String × WispDirectory) → List (String × WispDirectory) →
      List (String × WispDirectory)
  | [], _ => []
  | (k, v) :: xs, ys =>
    (k, mergeInto v (Wisp.alookup k ys)) :: mapMergeDirs xs ys
termination_by xs ys => sizeOf xs + sizeOf ys
decreasing_by
  · have := alookup_size_le k ys
    simp_arith [List.cons.sizeOf_spec, Prod.mk.sizeOf_spec]
    omega
  · simp_arith [List.cons.sizeOf_spec]

end

/-- The empty directory `{}` that `mergeDirectories` starts from. -/
def emptyDir : WispDirectory := .mk none none

/-- `mergeDirectories(...directories)` (lexicon.ts): the loop over the
argument list, skipping null/undefined arguments; each iteration is exactly
the two-directory merge `merge2`. -/
def mergeDirectories (ds : List (Option WispDirectory)) : WispDirectory :=
  ds.foldl (fun acc od => match od with
    | none => acc
    | some d => merge2 acc d) emptyDir

/-! ## Path-indexed views of a tree

These analysis functions let us state merge properties path by path: a path
is a list of names; `fileAt` follows `dirs` links for all but the last name
and reads the final name in `files`, and `dirAt` follows `dirs` links for
every name. -/

/-- The file entry a tree holds at a (structural) path. -/
def fileAt : WispDirectory → List String → Option WispFile
  | _, [] => none
  | d, [n] => alookup n d.filesL
  | d, n :: rest => (alookup n d.dirsL).bind (fun sub => fileAt sub rest)

/-- The subtree a tree holds at a (structural) path. -/
def dirAt : WispDirectory → List String → Option WispDirectory
  | d, [] => some d
  | d, n :: rest => (alookup n d.dirsL).bind (fun sub => dirAt sub rest)

/-- The `(files present?, dirs present?)` flags of the subtree at a path;
this is what distinguishes `{}` from `{files: {}}` in a deep comparison. -/
def flagsAt (d : WispDirectory) (p : List String) : Option (Bool × Bool) :=
  (dirAt d p).map (fun x => (x.files.isSome, x.dirs.isSome))

/-- Deep equality of two trees in the JavaScript sense: same file entry at
every path and same subtree structure (including presence of the `files` /
`dirs` properties) at every path.  Insertion order of object keys is not
observable to JavaScript deep equality and is ignored. -/
def dirEquiv (a b : WispDirectory) : Prop :=
  (∀ p, fileAt a p = fileAt b p) ∧ (∀ p, flagsAt a p = flagsAt b p)

@[simp] theorem fileAt_nil (d : WispDirectory) : fileAt d [] = none := rfl

theorem fileAt_single (d : WispDirectory) (n : String) :
    fileAt d [n] = alookup n d.filesL := rfl

theorem fileAt_cons (d : WispDirectory) (n m : String) (rest : List String) :
    fileAt d (n :: m :: rest) =
      (alookup n d.dirsL).bind (fun sub => fileAt sub (m :: rest)) := rfl

@[simp] theorem dirAt_nil (d : WispDirectory) : dirAt d [] = some d := rfl

theorem dirAt_cons (d : WispDirectory) (n : String) (rest : List String) :
    dirAt d (n :: rest) = (alookup n d.dirsL).bind (fun sub => dirAt sub rest) := rfl

/-! ## Basic merge lemmas -/

theorem merge2_def (f1 f2 : Option (List (String × WispFile)))
    (d1 d2 : Option (List (String × WispDirectory))) :
    merge2 (.mk f1 d1) (.mk f2 d2) =
      .mk (combineFilesOpt f1 f2)
        (match d1, d2 with
         | none, none => none
         | some xs, none => some xs
         | none, some ys => some ys
         | some xs, some ys =>
           some (mapMergeDirs xs ys ++ ys.filter (fun p => (alookup p.1 xs).isNone))) := by
  rw [merge2.eq_def]

@[simp] theorem mergeInto_some (v w : WispDirectory) : mergeInto v (some w) = merge2 v w := by
  rw [mergeInto]

@[simp] theorem mergeInto_none (v : WispDirectory) : mergeInto v none = v := by
  rw [mergeInto]

@[simp] theorem mapMergeDirs_nil (ys : List (String × WispDirectory)) :
    mapMergeDirs [] ys = [] := by
  rw [mapMergeDirs]

theorem mapMergeDirs_cons (k : String) (v : WispDirectory)
    (xs ys : List (String × WispDirectory)) :
    mapMergeDirs ((k, v) :: xs) ys =
      (k, mergeInto v (alookup k ys)) :: mapMergeDirs xs ys := by
  rw [mapMergeDirs]

/-- Merging the empty directory into `d` (the first loop iteration of
`mergeDirectories`) gives `d` back. -/
theorem merge2_empty_left (d : WispDirectory) : merge2 emptyDir d = d := by
  obtain ⟨f, ds⟩ := d
  rw [emptyDir, merge2_def]
  cases f <;> cases ds <;> rfl

/-- The subtree combination performed per name by the `dirs` loop. -/
def combineO : Option WispDirectory → Option WispDirectory → Option WispDirectory
  | none, y => y
  | some v, none => some v
  | some v, some w => some (merge2 v w)

@[simp] theorem combineO_none_left (y : Option WispDirectory) : combineO none y = y := by
  cases y <;> rfl

@[simp] theorem combineO_none_right (x : Option WispDirectory) : combineO x none = x := by
  cases x <;> rfl

@[simp] theorem combineO_some_some (v w : WispDirectory) :
    combineO (some v) (some w) = some (merge2 v w) := rfl

theorem alookup_mapMergeDirs (k : String) (xs ys : List (String × WispDirectory)) :
    alookup k (mapMergeDirs xs ys) =
      (alookup k xs).map (fun v => mergeInto v (alookup k ys)) := by
  induction xs with
  | nil => simp
  | cons p rest ih =>
    obtain ⟨k', v⟩ := p
    rw [mapMergeDirs_cons]
    by_cases h : k' = k
    · subst h; simp
    · simp [h, ih]

/-- Name lookup in the merged `dirs` map is the per-name combination. -/
theorem alookup_mergedDirs (k : String) (xs ys : List (String × WispDirectory)) :
    alookup k (mapMergeDirs xs ys ++ ys.filter (fun p => (alookup p.1 xs).isNone)) =
      combineO (alookup k xs) (alookup k ys) := by
  rw [alookup_append, alookup_mapMergeDirs]
  cases hx : alookup k xs with
  | none =>
    rw [alookup_filter_key_pos k (fun k' => (alookup k' xs).isNone) ys (by simp [hx])]
    cases alookup k ys <;> simp [Option.orElse, combineO]
  | some v =>
    rw [alookup_filter_key_neg k (fun k' => (alookup k' xs).isNone) ys (by simp [hx])]
    cases hy : alookup k ys <;> simp [Option.orElse, combineO, hy]

/-- The `dirs` lookup of a binary merge, at the level of whole trees. -/
theorem dirsLookup_merge2 (a b : WispDirectory) (k : String) :
    alookup k (merge2 a b).dirsL = combineO (alookup k a.dirsL) (alookup k b.dirsL) := by
  obtain ⟨f1, d1⟩ := a
  obtain ⟨f2, d2⟩ := b
  rw [merge2_def]
  cases d1 with
  | none => cases d2 with
    | none => simp [WispDirectory.dirsL, WispDirectory.dirs]
    | some ys => simp [WispDirectory.dirsL, WispDirectory.dirs]
  | some xs => cases d2 with
    | none => simp [WispDirectory.dirsL, WispDirectory.dirs]
    | some ys =>
      simp only [WispDirectory.dirsL, WispDirectory.dirs, Option.getD_some]
      exact alookup_mergedDirs k xs ys

/-- The `files` lookup of a binary merge: the later directory wins. -/
theorem filesLookup_merge2 (a b : WispDirectory) (k : String) :
    alookup k (merge2 a b).filesL =
      (alookup k b.filesL).orElse (fun _ => alookup k a.filesL) := by
  obtain ⟨f1, d1⟩ := a
  obtain ⟨f2, d2⟩ := b
  rw [merge2_def]
  cases f1 with
  | none => cases f2 with
    | none => simp [WispDirectory.filesL, WispDirectory.files, combineFilesOpt, Option.orElse]
    | some ys =>
      simp only [WispDirectory.filesL, WispDirectory.files, combineFilesOpt, Option.getD_some,
        Option.getD_none]
      cases alookup k ys <;> simp [Option.orElse]
  | some xs => cases f2 with
    | none =>
      simp only [WispDirectory.filesL, WispDirectory.files, combineFilesOpt, Option.getD_some,
        Option.getD_none]
      simp [Option.orElse]
    | some ys =>
      simp only [WispDirectory.filesL, WispDirectory.files, combineFilesOpt, Option.getD_some]
      exact alookup_spreadF k xs ys

/-! ## Associativity of the merge -/

/-- The `dirs`-map combination performed by one loop iteration of
`mergeDirectories` when both maps are present. -/
def dirsCombine (xs ys : List (String × WispDirectory)) : List (String × WispDirectory) :=
  mapMergeDirs xs ys ++ ys.filter (fun p => (alookup p.1 xs).isNone)

/-- The `dirs` combination including the truthiness checks of the loop. -/
def combineDirsOpt :
    Option (List (String × WispDirectory)) → Option (List (String × WispDirectory)) →
      Option (List (String × WispDirectory))
  | none, y => y
  | some xs, none => some xs
  | some xs, some ys => some (dirsCombine xs ys)

/-- `merge2` componentwise. -/
theorem merge2_components (a b : WispDirectory) :
    merge2 a b = .mk (combineFilesOpt a.files b.files) (combineDirsOpt a.dirs b.dirs) := by
  obtain ⟨f1, d1⟩ := a
  obtain ⟨f2, d2⟩ := b
  rw [merge2_def]
  cases d1 <;> cases d2 <;> rfl

theorem alookup_dirsCombine (k : String) (xs ys : List (String × WispDirectory)) :
    alookup k (dirsCombine xs ys) = combineO (alookup k xs) (alookup k ys) :=
  alookup_mergedDirs k xs ys

theorem mapMergeDirs_eq_map (xs ys : List (String × WispDirectory)) :
    mapMergeDirs xs ys = xs.map (fun p => (p.1, mergeInto p.2 (alookup p.1 ys))) := by
  induction xs with
  | nil => simp
  | cons p rest ih =>
    obtain ⟨k, v⟩ := p
    rw [mapMergeDirs_cons, ih]
    rfl

@[simp] theorem combineO_isNone (a b : Option WispDirectory) :
    (combineO a b).isNone = (a.isNone && b.isNone) := by
  cases a <;> cases b <;> rfl

theorem mapMergeDirs_append (xs xs' ys : List (String × WispDirectory)) :
    mapMergeDirs (xs ++ xs') ys = mapMergeDirs xs ys ++ mapMergeDirs xs' ys := by
  rw [mapMergeDirs_eq_map, mapMergeDirs_eq_map, mapMergeDirs_eq_map, List.map_append]

theorem mapMergeDirs_filter (q : String → Bool) (ys zs : List (String × WispDirectory)) :
    mapMergeDirs (ys.filter (fun p => q p.1)) zs =
      (mapMergeDirs ys zs).filter (fun p => q p.1) := by
  induction ys with
  | nil => simp
  | cons p rest ih =>
    obtain ⟨k, v⟩ := p
    cases hq : q k <;> simp [List.filter_cons, hq, mapMergeDirs_cons, ih]

/-- The keyed view of one entry of the merged `dirs` map: nesting two merge
passes equals one pass against the combined map, given associativity on the
subtrees of the first map. -/
theorem mapMergeDirs_mapMergeDirs (xs ys zs : List (String × WispDirectory))
    (H : ∀ p ∈ xs, ∀ w c, merge2 (merge2 p.2 w) c = merge2 p.2 (merge2 w c)) :
    mapMergeDirs (mapMergeDirs xs ys) zs = mapMergeDirs xs (dirsCombine ys zs) := by
  induction xs with
  | nil => simp
  | cons p rest ih =>
    obtain ⟨k, v⟩ := p
    rw [mapMergeDirs_cons, mapMergeDirs_cons, mapMergeDirs_cons]
    rw [ih (fun p hp => H p (List.mem_cons_of_mem _ hp))]
    have hhead : mergeInto (mergeInto v (alookup k ys)) (alookup k zs) =
        mergeInto v (alookup k (dirsCombine ys zs)) := by
      rw [alookup_dirsCombine]
      cases hy : alookup k ys with
      | none => cases hz : alookup k zs <;> simp [combineO]
      | some w =>
        cases hz : alookup k zs with
        | none => simp [combineO]
        | some c =>
          simp only [combineO, mergeInto_some]
          exact H (k, v) (List.mem_cons_self _ _) w c
    rw [hhead]

theorem filter_and_comm (l : List (String × α)) (q r : String → Bool) :
    (l.filter (fun p => q p.1)).filter (fun p => r p.1) =
      l.filter (fun p => r p.1 && q p.1) := by
  rw [List.filter_filter (fun p => q p.1) l]

/-- A key-based filter commutes with the value rewrite of a spread. -/
theorem spread_map_filter (q : String → Bool) (zs l : List (String × α)) :
    (l.filter (fun p => q p.1)).map (fun p => (p.1, (alookup p.1 zs).getD p.2)) =
      (l.map (fun p => (p.1, (alookup p.1 zs).getD p.2))).filter (fun p => q p.1) := by
  induction l with
  | nil => simp
  | cons p rest ih =>
    obtain ⟨k, v⟩ := p
    cases hq : q k <;> simp [List.filter_cons, hq, ih]

/-- Associativity of the JavaScript object spread. -/
theorem spreadF_assoc (xs ys zs : List (String × α)) :
    spreadF (spreadF xs ys) zs = spreadF xs (spreadF ys zs) := by
  unfold spreadF
  rw [List.map_append, List.map_map, List.filter_append, List.append_assoc]
  have seg1 : (xs.map ((fun p => (p.1, (alookup p.1 zs).getD p.2)) ∘
        (fun p => (p.1, (alookup p.1 ys).getD p.2)))) =
      xs.map (fun p => (p.1,
        (alookup p.1 (ys.map (fun p => (p.1, (alookup p.1 zs).getD p.2)) ++
          zs.filter (fun p => (alookup p.1 ys).isNone))).getD p.2)) := by
    apply List.map_congr_left
    intro p _
    obtain ⟨k, v⟩ := p
    have : alookup k (ys.map (fun p => (p.1, (alookup p.1 zs).getD p.2)) ++
        zs.filter (fun p => (alookup p.1 ys).isNone)) =
        (alookup k zs).orElse (fun _ => alookup k ys) := alookup_spreadF k ys zs
    rw [Function.comp]
    rw [this]
    cases hz : alookup k zs <;> cases hy : alookup k ys <;> simp [Option.orElse]
  have seg2 := spread_map_filter (fun k => (alookup k xs).isNone) zs ys
  have seg3 : (zs.filter (fun p =>
        (alookup p.1 (xs.map (fun p => (p.1, (alookup p.1 ys).getD p.2)) ++
          ys.filter (fun p => (alookup p.1 xs).isNone))).isNone)) =
      ((zs.filter (fun p => (alookup p.1 ys).isNone)).filter
        (fun p => (alookup p.1 xs).isNone)) := by
    rw [filter_and_comm zs (fun k => (alookup k ys).isNone) (fun k => (alookup k xs).isNone)]
    apply List.filter_congr
    intro p _
    obtain ⟨k, v⟩ := p
    have : alookup k (xs.map (fun p => (p.1, (alookup p.1 ys).getD p.2)) ++
        ys.filter (fun p => (alookup p.1 xs).isNone)) =
        (alookup k ys).orElse (fun _ => alookup k xs) := alookup_spreadF k xs ys
    rw [this]
    cases hx : alookup k xs <;> cases hy : alookup k ys <;> simp [Option.orElse]
  rw [seg1, seg2, seg3]

/-- Associativity of the `files` combination. -/
theorem combineFilesOpt_assoc (x y z : Option (List (String × WispFile))) :
    combineFilesOpt (combineFilesOpt x y) z = combineFilesOpt x (combineFilesOpt y z) := by
  cases x <;> cases y <;> cases z <;> simp [combineFilesOpt, spreadF_assoc]

/-- Associativity of the `dirs` combination, assuming associativity of the
recursive merge on the subtrees of the first map. -/
theorem dirsCombine_assoc (xs ys zs : List (String × WispDirectory))
    (H : ∀ p ∈ xs, ∀ w c, merge2 (merge2 p.2 w) c = merge2 p.2 (merge2 w c)) :
    dirsCombine (dirsCombine xs ys) zs = dirsCombine xs (dirsCombine ys zs) := by
  have h1 : mapMergeDirs (dirsCombine xs ys) zs =
      mapMergeDirs (mapMergeDirs xs ys) zs ++
        mapMergeDirs (ys.filter (fun p => (alookup p.1 xs).isNone)) zs := by
    rw [dirsCombine, mapMergeDirs_append]
  have h2 : (zs.filter (fun p => (alookup p.1 (dirsCombine xs ys)).isNone)) =
      ((zs.filter (fun p => (alookup p.1 ys).isNone)).filter
        (fun p => (alookup p.1 xs).isNone)) := by
    rw [filter_and_comm zs (fun k => (alookup k ys).isNone) (fun k => (alookup k xs).isNone)]
    apply List.filter_congr
    intro p _
    rw [alookup_dirsCombine, combineO_isNone, Bool.and_comm]
  have h3 := mapMergeDirs_mapMergeDirs xs ys zs H
  have h4 := mapMergeDirs_filter (fun k => (alookup k xs).isNone) ys zs
  have h5 : (dirsCombine ys zs).filter (fun p => (alookup p.1 xs).isNone) =
      (mapMergeDirs ys zs).filter (fun p => (alookup p.1 xs).isNone) ++
        (zs.filter (fun p => (alookup p.1 ys).isNone)).filter
          (fun p => (alookup p.1 xs).isNone) := by
    rw [dirsCombine, List.filter_append]
  show mapMergeDirs (dirsCombine xs ys) zs ++
      zs.filter (fun p => (alookup p.1 (dirsCombine xs ys)).isNone) =
    mapMergeDirs xs (dirsCombine ys zs) ++
      (dirsCombine ys zs).filter (fun p => (alookup p.1 xs).isNone)
  rw [h1, h2, h3, h4, h5, List.append_assoc]

/-- Associativity of the `dirs` combination at the `Option` level. -/
theorem combineDirsOpt_assoc (x y z : Option (List (String × WispDirectory)))
    (H : ∀ xs, x = some xs → ∀ p ∈ xs, ∀ w c,
      merge2 (merge2 p.2 w) c = merge2 p.2 (merge2 w c)) :
    combineDirsOpt (combineDirsOpt x y) z = combineDirsOpt x (combineDirsOpt y z) := by
  cases x with
  | none => cases y <;> cases z <;> rfl
  | some xs =>
    cases y with
    | none => cases z <;> rfl
    | some ys =>
      cases z with
      | none => rfl
      | some zs =>
        show some (dirsCombine (dirsCombine xs ys) zs) = some (dirsCombine xs (dirsCombine ys zs))
        rw [dirsCombine_assoc xs ys zs (H xs rfl)]

/-- `mergeDirectories` restricted to two arguments is associative (strong
induction on the size of the first tree). -/
theorem merge2_assoc_sized :
    ∀ (n : Nat) (a : WispDirectory), sizeOf a ≤ n →
      ∀ b c, merge2 (merge2 a b) c = merge2 a (merge2 b c) := by
  intro n
  induction n with
  | zero =>
    intro a ha
    obtain ⟨f, d⟩ := a
    simp [WispDirectory.mk.sizeOf_spec] at ha
  | succ n ih =>
    intro a ha b c
    simp only [merge2_components, WispDirectory.files_mk, WispDirectory.dirs_mk]
    congr 1
    · exact combineFilesOpt_assoc a.files b.files c.files
    · apply combineDirsOpt_assoc
      intro xs hxs p hp w c'
      apply ih p.2 ?_ w c'
      obtain ⟨f, d⟩ := a
      simp only [WispDirectory.dirs_mk] at hxs
      subst hxs
      have h1 : sizeOf p < sizeOf xs := List.sizeOf_lt_of_mem hp
      have h2 : sizeOf p.2 < sizeOf p := by
        obtain ⟨k, v⟩ := p
        simp [Prod.mk.sizeOf_spec]
      have h3 : sizeOf (WispDirectory.mk f (some xs)) =
          1 + sizeOf f + (1 + sizeOf xs) := by
        simp [WispDirectory.mk.sizeOf_spec, Option.some.sizeOf_spec]
      omega

/-- `mergeDirectories` restricted to two arguments is associative. -/
theorem merge2_assoc (a b c : WispDirectory) :
    merge2 (merge2 a b) c = merge2 a (merge2 b c) :=
  merge2_assoc_sized (sizeOf a) a (Nat.le_refl _) b c

/-- The presence flags of a binary merge. -/
theorem flags_merge2 (a b : WispDirectory) :
    (merge2 a b).files.isSome = (a.files.isSome || b.files.isSome) ∧
      (merge2 a b).dirs.isSome = (a.dirs.isSome || b.dirs.isSome) := by
  obtain ⟨f1, d1⟩ := a
  obtain ⟨f2, d2⟩ := b
  rw [merge2_def]
  cases f1 <;> cases f2 <;> cases d1 <;> cases d2 <;> simp [combineFilesOpt]

/-! ## Merge through the path-indexed views -/

/-- The file entry of a binary merge at any path: the second (later)
directory wins wherever it defines a file. -/
theorem fileAt_merge2 (p : List String) :
    ∀ a b, fileAt (merge2 a b) p = (fileAt b p).orElse (fun _ => fileAt a p) := by
  induction p with
  | nil => intro a b; rfl
  | cons n t ih =>
    intro a b
    cases t with
    | nil =>
      rw [fileAt_single, fileAt_single, fileAt_single, filesLookup_merge2]
    | cons m rest =>
      rw [fileAt_cons, fileAt_cons, fileAt_cons, dirsLookup_merge2]
      cases ha : alookup n a.dirsL with
      | none =>
        cases hb : alookup n b.dirsL with
        | none => rfl
        | some w =>
          simp only [combineO_none_left, Option.some_bind, Option.none_bind]
          cases fileAt w (m :: rest) <;> rfl
      | some v =>
        cases hb : alookup n b.dirsL with
        | none =>
          simp only [combineO_none_right, Option.some_bind, Option.none_bind]
          rfl
        | some w =>
          simp only [combineO_some_some, Option.some_bind]
          rw [ih v w]

/-- The subtree of a binary merge at any path is the per-path combination. -/
theorem dirAt_merge2 (p : List String) :
    ∀ a b, dirAt (merge2 a b) p = combineO (dirAt a p) (dirAt b p) := by
  induction p with
  | nil => intro a b; rfl
  | cons n t ih =>
    intro a b
    rw [dirAt_cons, dirAt_cons, dirAt_cons, dirsLookup_merge2]
    cases ha : alookup n a.dirsL with
    | none =>
      cases hb : alookup n b.dirsL with
      | none => rfl
      | some w =>
        simp only [combineO_none_left, Option.some_bind, Option.none_bind]
    | some v =>
      cases hb : alookup n b.dirsL with
      | none =>
        simp only [combineO_none_right, Option.some_bind, Option.none_bind]
      | some w =>
        simp only [combineO_some_some, Option.some_bind]
        exact ih v w

/-- Per-path combination of presence flags. -/
def combineFlags : Option (Bool × Bool) → Option (Bool × Bool) → Option (Bool × Bool)
  | none, y => y
  | some x, none => some x
  | some x, some y => some (x.1 || y.1, x.2 || y.2)

/-- The presence flags of a binary merge at any path. -/
theorem flagsAt_merge2 (p : List String) (a b : WispDirectory) :
    flagsAt (merge2 a b) p = combineFlags (flagsAt a p) (flagsAt b p) := by
  unfold flagsAt
  rw [dirAt_merge2]
  cases ha : dirAt a p with
  | none => cases hb : dirAt b p <;> rfl
  | some x =>
    cases hb : dirAt b p with
    | none => rfl
    | some y =>
      show some ((merge2 x y).files.isSome, (merge2 x y).dirs.isSome) = _
      rw [(flags_merge2 x y).1, (flags_merge2 x y).2]
      rfl

/-! ## The n-ary merge as a fold of the binary merge -/

theorem mergeDirectories_map_some (ds : List WispDirectory) :
    mergeDirectories (ds.map some) = ds.foldl merge2 emptyDir := by
  rw [mergeDirectories, List.foldl_map]

theorem foldl_merge2_cons (v : WispDirectory) (ds : List WispDirectory) :
    (v :: ds).foldl merge2 emptyDir = ds.foldl merge2 v := by
  simp [List.foldl_cons, merge2_empty_left]

/-- The file entry of a fold of merges at a path. -/
theorem fileAt_foldl_merge2 (ds : List WispDirectory) (p : List String) :
    ∀ acc, fileAt (ds.foldl merge2 acc) p =
      ds.foldl (fun r d => (fileAt d p).orElse (fun _ => r)) (fileAt acc p) := by
  induction ds with
  | nil => intro acc; rfl
  | cons d rest ih =>
    intro acc
    rw [List.foldl_cons, List.foldl_cons, ih, fileAt_merge2]

/-- Folding by last-wins equals scanning the reversed list for the first
tree that defines the file. -/
theorem foldl_orElse_reverse (ds : List WispDirectory) (p : List String) :
    ∀ (acc : Option WispFile),
      ds.foldl (fun r d => (fileAt d p).orElse (fun _ => r)) acc =
        (ds.reverse.findSome? (fun d => fileAt d p)).orElse (fun _ => acc) := by
  induction ds with
  | nil => intro acc; rfl
  | cons d rest ih =>
    intro acc
    rw [List.foldl_cons, ih, List.reverse_cons, List.findSome?_append]
    cases h : rest.reverse.findSome? (fun d => fileAt d p) with
    | some v => simp [h, Option.orElse]
    | none =>
      simp only [h, Option.none_or]
      cases hd : fileAt d p <;>
        simp [List.findSome?_cons, List.findSome?_nil, hd, Option.orElse]

/-- The `dirs` lookup of a fold of merges. -/
theorem dirsLookup_foldl_merge2 (ds : List WispDirectory) (n : String) :
    ∀ acc, alookup n (ds.foldl merge2 acc).dirsL =
      ds.foldl (fun r d => combineO r (alookup n d.dirsL)) (alookup n acc.dirsL) := by
  induction ds with
  | nil => intro acc; rfl
  | cons d rest ih =>
    intro acc
    rw [List.foldl_cons, List.foldl_cons, ih, dirsLookup_merge2]

theorem foldl_combineO_some (opts : List (Option WispDirectory)) :
    ∀ v, opts.foldl combineO (some v) =
      some ((opts.filterMap id).foldl merge2 v) := by
  induction opts with
  | nil => intro v; rfl
  | cons o rest ih =>
    intro v
    cases o with
    | none => rw [List.foldl_cons]; exact ih v
    | some w =>
      rw [List.foldl_cons]
      show rest.foldl combineO (some (merge2 v w)) = _
      rw [ih (merge2 v w)]
      rfl

theorem foldl_combineO_none (opts : List (Option WispDirectory)) :
    opts.foldl combineO none =
      match opts.filterMap id with
      | [] => none
      | v :: vs => some (vs.foldl merge2 v) := by
  induction opts with
  | nil => rfl
  | cons o rest ih =>
    cases o with
    | none => rw [List.foldl_cons]; exact ih
    | some w =>
      rw [List.foldl_cons]
      show rest.foldl combineO (some w) = _
      rw [foldl_combineO_some]
      rfl

/-! ## Strings: JavaScript trim / split on character lists -/

/-- JavaScript whitespace, as recognised by `String.prototype.trim` and the
regex class `\s`: ASCII whitespace, the line terminators LF, CR, LS (U+2028)
and PS (U+2029), and the Unicode space separators NBSP, U+1680,
U+2000–U+200A, U+202F, U+205F, U+3000, plus the BOM U+FEFF. -/
def isJsWs (c : Char) : Bool :=
  c = ' ' || c = '\t' || c = '\n' || c = '\r' ||
    c = Char.ofNat 11 || c = Char.ofNat 12 || c = Char.ofNat 160 ||
    c = Char.ofNat 0x1680 ||
    (0x2000 ≤ c.toNat && c.toNat ≤ 0x200A) ||
    c = Char.ofNat 0x2028 || c = Char.ofNat 0x2029 ||
    c = Char.ofNat 0x202F || c = Char.ofNat 0x205F ||
    c = Char.ofNat 0x3000 || c = Char.ofNat 65279

/-- `s.trim()`. -/
def trimJS (cs : List Char) : List Char :=
  ((cs.dropWhile isJsWs).reverse.dropWhile isJsWs).reverse

/-- `s.split(sep)` for a one-character separator; `"".split(sep)` is `[""]`,
as in JavaScript. -/
def splitOnChar (sep : Char) : List Char → List (List Char)
  | [] => [[]]
  | c :: rest =>
    match splitOnChar sep rest with
    | [] => [[]]
    | s :: ss => if c = sep then [] :: s :: ss else (c :: s) :: ss

/-! ## `normalizePath` and `lookupPath` (src/types/lexicon.ts) -/

/-- The segment list computed by `normalizePath` (lexicon.ts lines 462-479):
trim, split on `/`, drop empty and `.` segments, and let `..` pop the last
accumulated segment. -/
def normalizeSegsCL (cs : List Char) : List (List Char) :=
  ((splitOnChar '/' (trimJS cs)).filter
      (fun s => decide (s ≠ [] ∧ s ≠ ['.']))).foldl
    (fun acc seg => if seg = ['.', '.'] then acc.dropLast else acc ++ [seg]) []

/-- `Array.prototype.join` with separator `/`. -/
def joinSlash : List (List Char) → List Char
  | [] => []
  | [s] => s
  | s :: rest => s ++ '/' :: joinSlash rest

/-- `normalizePath` (lexicon.ts): the normalised segments joined by `/`. -/
def normalizePath (path : String) : String :=
  ⟨joinSlash (normalizeSegsCL path.data)⟩

/-- `PathResolution` (lexicon.ts): either a file lookup result or a
directory listing. -/
inductive PathResolution where
  | file (cid : String) (mimeType : String)
  | dir (files : List (String × WispFile)) (dirs : List String)
deriving DecidableEq, Repr

/-- The segment walk of `lookupPath`: through `dirs` for all but the last
segment; the last segment is tried in `files` first, then in `dirs` (as a
directory listing). -/
def lookupSegs : WispDirectory → List String → Option PathResolution
  | _, [] => none
  | d, [n] =>
    match alookup n d.filesL with
    | some f => some (.file f.cid (f.mimeType.getD "application/octet-stream"))
    | none =>
      match alookup n d.dirsL with
      | some sub => some (.dir sub.filesL (sub.dirsL.map Prod.fst))
      | none => none
  | d, n :: rest => (alookup n d.dirsL).bind (fun sub => lookupSegs sub rest)

/-- `lookupPath` (lexicon.ts lines 484-542): normalise, answer the root
listing for the empty path, else walk the split segments. -/
def lookupPath (directory : WispDirectory) (path : String) : Option PathResolution :=
  let normalizedPath := normalizePath path
  if normalizedPath = "" then
    some (.dir directory.filesL (directory.dirsL.map Prod.fst))
  else
    lookupSegs directory ((splitOnChar '/' normalizedPath.data).map (fun s => (⟨s⟩ : String)))

/-! ## The service worker's `normalizePath` and `lookupFile` (sw.js) -/

/-- `replace(/^\x2f/, '')`: drop one leading slash. -/
def dropLeadingSlash (l : List Char) : List Char :=
  if l.head? = some '/' then l.tail else l

/-- `replace(/\x2f$/, '')`: drop one trailing slash. -/
def dropTrailingSlash (l : List Char) : List Char :=
  if l.getLast? = some '/' then l.dropLast else l

def swNormCore (l : List Char) : List Char :=
  dropTrailingSlash
    ((dropLeadingSlash l).takeWhile (fun c => decide (c ≠ '?' ∧ c ≠ '#')))

/-- The service worker's `normalizePath` (sw.js lines 122-131): empty and
`"/"` map to the empty path; otherwise drop one leading slash, cut at the
first `?` or `#` (`split(/[?#]/)[0]`), and drop one trailing slash. -/
def swNormalizePath (path : String) : String :=
  if path = "" || path = "/" then "" else ⟨swNormCore path.data⟩

/-- The service worker's `lookupFile` (sw.js lines 136-170).  Its segment
walk — `dirs` links for all but the last segment, then `files` for the last
— is exactly `fileAt`.  For the empty normalised path the source recursively
calls itself on `"index.html"` and `"index.htm"`; those calls normalise to
the non-empty branch, which is unfolded here. -/
def lookupFile (manifest : WispDirectory) (path : String) : Option WispFile :=
  let normalized := swNormalizePath path
  if normalized = "" then
    match fileAt manifest ["index.html"] with
    | some f => some f
    | none => fileAt manifest ["index.htm"]
  else
    fileAt manifest ((splitOnChar '/' normalized.data).map (fun s => (⟨s⟩ : String)))

/-! ## Lemmas about trim, split and join -/

theorem dropWhile_eq_self_of (p : Char → Bool) (cs : List Char)
    (h : ∀ c ∈ cs, p c = false) : cs.dropWhile p = cs := by
  cases cs with
  | nil => rfl
  | cons c t =>
    rw [List.dropWhile_cons]
    simp [h c (List.mem_cons_self c t)]

theorem trimJS_eq_self (cs : List Char) (h : ∀ c ∈ cs, isJsWs c = false) :
    trimJS cs = cs := by
  rw [trimJS, dropWhile_eq_self_of isJsWs cs h,
    dropWhile_eq_self_of isJsWs cs.reverse
      (fun c hc => h c (List.mem_reverse.mp hc)),
    List.reverse_reverse]

theorem takeWhile_eq_self_of (p : Char → Bool) (cs : List Char)
    (h : ∀ c ∈ cs, p c = true) : cs.takeWhile p = cs := by
  induction cs with
  | nil => rfl
  | cons c t ih =>
    rw [List.takeWhile_cons]
    simp only [h c (List.mem_cons_self c t), if_true]
    rw [ih (fun c hc => h c (List.mem_cons_of_mem _ hc))]

theorem splitOnChar_ne_nil (sep : Char) (cs : List Char) : splitOnChar sep cs ≠ [] := by
  induction cs with
  | nil => simp [splitOnChar]
  | cons c rest ih =>
    rw [splitOnChar]
    cases h : splitOnChar sep rest with
    | nil => simp
    | cons s ss => by_cases hc : c = sep <;> simp [hc]

theorem splitOnChar_sep_cons (sep : Char) (l : List Char) :
    splitOnChar sep (sep :: l) = [] :: splitOnChar sep l := by
  rw [splitOnChar]
  cases h : splitOnChar sep l with
  | nil => exact absurd h (splitOnChar_ne_nil sep l)
  | cons s ss => simp

theorem splitOnChar_seg_append (sep : Char) (x l : List Char)
    (hx : ∀ c ∈ x, c ≠ sep) :
    splitOnChar sep (x ++ sep :: l) = x :: splitOnChar sep l := by
  induction x with
  | nil =>
    rw [List.nil_append, splitOnChar_sep_cons]
  | cons c x ih =>
    have hcs : c ≠ sep := hx c (List.mem_cons_self c x)
    rw [List.cons_append, splitOnChar,
      ih (fun c hc => hx c (List.mem_cons_of_mem _ hc))]
    simp [hcs]

theorem splitOnChar_of_no_sep (sep : Char) (x : List Char) (hx : ∀ c ∈ x, c ≠ sep) :
    splitOnChar sep x = [x] := by
  induction x with
  | nil => rfl
  | cons c x ih =>
    have hcs : c ≠ sep := hx c (List.mem_cons_self c x)
    rw [splitOnChar, ih (fun c hc => hx c (List.mem_cons_of_mem _ hc))]
    simp [hcs]

/-- Every segment produced by `splitOnChar` is free of the separator. -/
theorem splitOnChar_mem_no_sep (sep : Char) (cs : List Char) :
    ∀ x ∈ splitOnChar sep cs, ∀ c ∈ x, c ≠ sep := by
  induction cs with
  | nil =>
    intro x hx
    simp [splitOnChar] at hx
    subst hx
    intro c hc
    simp at hc
  | cons c rest ih =>
    intro x hx
    rw [splitOnChar] at hx
    cases h : splitOnChar sep rest with
    | nil => exact absurd h (splitOnChar_ne_nil sep rest)
    | cons s ss =>
      rw [h] at hx
      by_cases hc : c = sep
      · simp only [hc, if_true] at hx
        rcases List.mem_cons.mp hx with hx | hx
        · subst hx; intro c hc; simp at hc
        · exact ih x (by rw [h]; exact hx)
      · simp only [hc, if_false] at hx
        rcases List.mem_cons.mp hx with hx | hx
        · subst hx
          intro d hd
          rcases List.mem_cons.mp hd with hd | hd
          · subst hd; exact hc
          · exact ih s (by rw [h]; exact List.mem_cons_self s ss) d hd
        · exact ih x (by rw [h]; exact List.mem_cons_of_mem s hx)

theorem joinSlash_cons_cons (s t : List Char) (rest : List (List Char)) :
    joinSlash (s :: t :: rest) = s ++ '/' :: joinSlash (t :: rest) := rfl

/-- Splitting a join recovers the segments. -/
theorem splitOnChar_joinSlash (xss : List (List Char)) (hne : xss ≠ [])
    (hall : ∀ x ∈ xss, ∀ c ∈ x, c ≠ '/') :
    splitOnChar '/' (joinSlash xss) = xss := by
  induction xss with
  | nil => exact absurd rfl hne
  | cons x xss ih =>
    cases xss with
    | nil =>
      show splitOnChar '/' x = [x]
      exact splitOnChar_of_no_sep '/' x (hall x (List.mem_cons_self x []))
    | cons y rest =>
      rw [joinSlash_cons_cons,
        splitOnChar_seg_append '/' x _ (hall x (List.mem_cons_self x _)),
        ih (by simp) (fun z hz => hall z (List.mem_cons_of_mem x hz))]

theorem joinSlash_append_nil (xss : List (List Char)) (hne : xss ≠ []) :
    joinSlash (xss ++ [[]]) = joinSlash xss ++ ['/'] := by
  induction xss with
  | nil => exact absurd rfl hne
  | cons x xss ih =>
    cases xss with
    | nil => rfl
    | cons y rest =>
      show x ++ '/' :: joinSlash ((y :: rest) ++ [[]]) =
        (x ++ '/' :: joinSlash (y :: rest)) ++ ['/']
      rw [ih (by simp)]
      simp

theorem mem_joinSlash (xss : List (List Char)) :
    ∀ c ∈ joinSlash xss, c = '/' ∨ ∃ x ∈ xss, c ∈ x := by
  induction xss with
  | nil => intro c hc; simp [joinSlash] at hc
  | cons x xss ih =>
    cases xss with
    | nil =>
      intro c hc
      exact Or.inr ⟨x, List.mem_cons_self x [], hc⟩
    | cons y rest =>
      intro c hc
      rw [joinSlash_cons_cons] at hc
      rcases List.mem_append.mp hc with hc | hc
      · exact Or.inr ⟨x, List.mem_cons_self x _, hc⟩
      · rcases List.mem_cons.mp hc with hc | hc
        · exact Or.inl hc
        · rcases ih c hc with h | ⟨z, hz, hcz⟩
          · exact Or.inl h
          · exact Or.inr ⟨z, List.mem_cons_of_mem x hz, hcz⟩

theorem joinSlash_ne_nil (x : List Char) (xss : List (List Char)) (hx : x ≠ []) :
    joinSlash (x :: xss) ≠ [] := by
  cases xss with
  | nil => exact hx
  | cons y rest =>
    rw [joinSlash_cons_cons]
    intro h
    rcases List.append_eq_nil.mp h with ⟨h1, _⟩
    exact hx h1

theorem mem_of_getLast_some (l : List Char) (a : Char) (h : l.getLast? = some a) :
    a ∈ l := by
  have hx : a ∈ l.getLast? := h
  rcases List.mem_getLast?_eq_getLast hx with ⟨hne, heq⟩
  rw [heq]
  exact List.getLast_mem hne

theorem joinSlash_getLast_ne_slash (xss : List (List Char))
    (hne : ∀ x ∈ xss, x ≠ []) (hall : ∀ x ∈ xss, ∀ c ∈ x, c ≠ '/') :
    (joinSlash xss).getLast? ≠ some '/' := by
  induction xss with
  | nil => simp [joinSlash]
  | cons x xss ih =>
    cases xss with
    | nil =>
      show x.getLast? ≠ some '/'
      intro h
      exact hall x (List.mem_cons_self x []) '/' (mem_of_getLast_some x '/' h) rfl
    | cons y rest =>
      rw [joinSlash_cons_cons]
      have hJ : joinSlash (y :: rest) ≠ [] :=
        joinSlash_ne_nil y rest (hne y (List.mem_cons_of_mem x (List.mem_cons_self y rest)))
      rw [List.getLast?_append_of_ne_nil x (show ('/' :: joinSlash (y :: rest)) ≠ [] by simp)]
      have htail : (joinSlash (y :: rest)).getLast? ≠ some '/' :=
        ih (fun z hz => hne z (List.mem_cons_of_mem x hz))
          (fun z hz => hall z (List.mem_cons_of_mem x hz))
      cases hJe : joinSlash (y :: rest) with
      | nil => exact absurd hJe hJ
      | cons j js =>
        rw [hJe] at htail
        rw [List.getLast?_cons_cons]
        exact htail

example : normalizePath "/a/../b/" = "b" := by decide
example : normalizePath "a/./b" = "a/b" := by decide
example : normalizePath "" = "" := by decide
example : normalizePath "/ a" = " a" := by decide
example : normalizePath " a" = "a" := by decide
example : swNormalizePath "/x/y/" = "x/y" := by decide
example : swNormalizePath "a/b.html?x=1#y" = "a/b.html" := by decide

/-! ## Well-behaved path segments

A "plain" segment has no whitespace, no `/`, `?` or `#`, and is neither
`"."` nor `".."`: for paths built from such segments the two path
normalisers behave transparently. -/

/-- A well-behaved path segment. -/
def goodSeg (s : String) : Bool :=
  decide (s.data ≠ [] ∧
    (∀ c ∈ s.data, isJsWs c = false ∧ c ≠ '/' ∧ c ≠ '?' ∧ c ≠ '#') ∧
    s ≠ "." ∧ s ≠ "..")

/-- The path spelled by a list of segments, joined with `/`. -/
def pathOfSegs (segs : List String) : String :=
  ⟨joinSlash (segs.map String.data)⟩

theorem goodSeg_spec (s : String) (h : goodSeg s = true) :
    s.data ≠ [] ∧
      (∀ c ∈ s.data, isJsWs c = false ∧ c ≠ '/' ∧ c ≠ '?' ∧ c ≠ '#') ∧
      s ≠ "." ∧ s ≠ ".." :=
  of_decide_eq_true h

theorem foldl_segs_no_dotdot (l : List (List Char))
    (h : ∀ s ∈ l, s ≠ ['.', '.']) :
    ∀ acc, l.foldl
        (fun acc seg => if seg = ['.', '.'] then acc.dropLast else acc ++ [seg]) acc =
      acc ++ l := by
  induction l with
  | nil => intro acc; simp
  | cons x l ih =>
    intro acc
    rw [List.foldl_cons]
    rw [if_neg (h x (List.mem_cons_self x l))]
    rw [ih (fun s hs => h s (List.mem_cons_of_mem x hs)) (acc ++ [x])]
    simp

theorem data_ne_of_ne_String (s t : String) (h : s ≠ t) : s.data ≠ t.data :=
  fun hd => h (String.ext hd)

/-- On a good joined path the VFS normalisation is the identity on the
segment list. -/
theorem normalizeSegsCL_good (segs : List String) (hne : segs ≠ [])
    (hgood : ∀ s ∈ segs, goodSeg s = true) :
    normalizeSegsCL (joinSlash (segs.map String.data)) = segs.map String.data := by
  have hmapne : segs.map String.data ≠ [] := by
    intro h
    exact hne (List.map_eq_nil_iff.mp h)
  have hnoslash : ∀ x ∈ segs.map String.data, ∀ c ∈ x, c ≠ '/' := by
    intro x hx c hc
    rcases List.mem_map.mp hx with ⟨s, hs, rfl⟩
    exact ((goodSeg_spec s (hgood s hs)).2.1 c hc).2.1
  have htrim : trimJS (joinSlash (segs.map String.data)) =
      joinSlash (segs.map String.data) := by
    apply trimJS_eq_self
    intro c hc
    rcases mem_joinSlash _ c hc with h | ⟨x, hx, hcx⟩
    · subst h; rfl
    · rcases List.mem_map.mp hx with ⟨s, hs, rfl⟩
      exact ((goodSeg_spec s (hgood s hs)).2.1 c hcx).1
  rw [normalizeSegsCL, htrim,
    splitOnChar_joinSlash (segs.map String.data) hmapne hnoslash]
  have hfilter : (segs.map String.data).filter
      (fun s => decide (s ≠ [] ∧ s ≠ ['.'])) = segs.map String.data := by
    apply List.filter_eq_self.mpr
    intro x hx
    rcases List.mem_map.mp hx with ⟨s, hs, rfl⟩
    rcases goodSeg_spec s (hgood s hs) with ⟨h1, _, h3, _⟩
    exact decide_eq_true ⟨h1, data_ne_of_ne_String s "." h3⟩
  rw [hfilter]
  rw [foldl_segs_no_dotdot _ ?_ []]
  · simp
  · intro x hx
    rcases List.mem_map.mp hx with ⟨s, hs, rfl⟩
    exact data_ne_of_ne_String s ".." (goodSeg_spec s (hgood s hs)).2.2.2

/-- A good joined path is a fixed point of `normalizePath`. -/
theorem normalizePath_good (segs : List String) (hne : segs ≠ [])
    (hgood : ∀ s ∈ segs, goodSeg s = true) :
    normalizePath (pathOfSegs segs) = pathOfSegs segs := by
  show (⟨joinSlash (normalizeSegsCL (joinSlash (segs.map String.data)))⟩ : String) = _
  rw [normalizeSegsCL_good segs hne hgood]
  rfl

/-- Characters of a good joined path are never JavaScript whitespace. -/
theorem good_join_no_ws (segs : List String)
    (hgood : ∀ s ∈ segs, goodSeg s = true) :
    ∀ c ∈ joinSlash (segs.map String.data), isJsWs c = false := by
  intro c hc
  rcases mem_joinSlash _ c hc with h | ⟨x, hx, hcx⟩
  · subst h; rfl
  · rcases List.mem_map.mp hx with ⟨s, hs, rfl⟩
    exact ((goodSeg_spec s (hgood s hs)).2.1 c hcx).1

/-- The filter step of `normalizePath` keeps every good segment. -/
theorem good_filter_eq_self (segs : List String)
    (hgood : ∀ s ∈ segs, goodSeg s = true) :
    (segs.map String.data).filter (fun s => decide (s ≠ [] ∧ s ≠ ['.'])) =
      segs.map String.data := by
  apply List.filter_eq_self.mpr
  intro x hx
  rcases List.mem_map.mp hx with ⟨s, hs, rfl⟩
  rcases goodSeg_spec s (hgood s hs) with ⟨h1, _, h3, _⟩
  exact decide_eq_true ⟨h1, data_ne_of_ne_String s "." h3⟩

/-- The fold step of `normalizePath` is the identity on good segments. -/
theorem good_fold_eq_self (segs : List String)
    (hgood : ∀ s ∈ segs, goodSeg s = true) :
    (segs.map String.data).foldl
        (fun acc seg => if seg = ['.', '.'] then acc.dropLast else acc ++ [seg]) [] =
      segs.map String.data := by
  rw [foldl_segs_no_dotdot _ ?_ []]
  · simp
  · intro x hx
    rcases List.mem_map.mp hx with ⟨s, hs, rfl⟩
    exact data_ne_of_ne_String s ".." (goodSeg_spec s (hgood s hs)).2.2.2

/-- Adding a leading slash does not change the VFS normalisation of a good
path. -/
theorem normalizePath_leading_slash (segs : List String) (hne : segs ≠ [])
    (hgood : ∀ s ∈ segs, goodSeg s = true) :
    normalizePath ("/" ++ pathOfSegs segs) = normalizePath (pathOfSegs segs) := by
  have hmapne : segs.map String.data ≠ [] := by
    intro h; exact hne (List.map_eq_nil_iff.mp h)
  have hnoslash : ∀ x ∈ segs.map String.data, ∀ c ∈ x, c ≠ '/' := by
    intro x hx c hc
    rcases List.mem_map.mp hx with ⟨s, hs, rfl⟩
    exact ((goodSeg_spec s (hgood s hs)).2.1 c hc).2.1
  have hdata : ("/" ++ pathOfSegs segs).data =
      '/' :: joinSlash (segs.map String.data) := by
    rw [String.data_append]; rfl
  have hA : normalizeSegsCL ("/" ++ pathOfSegs segs).data = segs.map String.data := by
    rw [hdata, normalizeSegsCL]
    rw [trimJS_eq_self _ ?hws]
    case hws =>
      intro c hc
      rcases List.mem_cons.mp hc with h | hc
      · subst h; rfl
      · exact good_join_no_ws segs hgood c hc
    rw [splitOnChar_sep_cons,
      splitOnChar_joinSlash (segs.map String.data) hmapne hnoslash]
    rw [List.filter_cons, if_neg (by simp)]
    rw [good_filter_eq_self segs hgood, good_fold_eq_self segs hgood]
  have hB : normalizeSegsCL (pathOfSegs segs).data = segs.map String.data :=
    normalizeSegsCL_good segs hne hgood
  show (⟨joinSlash (normalizeSegsCL ("/" ++ pathOfSegs segs).data)⟩ : String) =
    ⟨joinSlash (normalizeSegsCL (pathOfSegs segs).data)⟩
  rw [hA, hB]

/-- Adding a trailing slash does not change the VFS normalisation of a good
path. -/
theorem normalizePath_trailing_slash (segs : List String) (hne : segs ≠ [])
    (hgood : ∀ s ∈ segs, goodSeg s = true) :
    normalizePath (pathOfSegs segs ++ "/") = normalizePath (pathOfSegs segs) := by
  have hmapne : segs.map String.data ≠ [] := by
    intro h; exact hne (List.map_eq_nil_iff.mp h)
  have hnoslash : ∀ x ∈ segs.map String.data, ∀ c ∈ x, c ≠ '/' := by
    intro x hx c hc
    rcases List.mem_map.mp hx with ⟨s, hs, rfl⟩
    exact ((goodSeg_spec s (hgood s hs)).2.1 c hc).2.1
  have hdata : (pathOfSegs segs ++ "/").data =
      joinSlash (segs.map String.data ++ [[]]) := by
    rw [String.data_append, joinSlash_append_nil _ hmapne]; rfl
  have hA : normalizeSegsCL (pathOfSegs segs ++ "/").data = segs.map String.data := by
    rw [hdata, normalizeSegsCL]
    rw [trimJS_eq_self _ ?hws]
    case hws =>
      intro c hc
      rw [joinSlash_append_nil _ hmapne] at hc
      rcases List.mem_append.mp hc with hc | hc
      · exact good_join_no_ws segs hgood c hc
      · simp at hc; subst hc; rfl
    rw [splitOnChar_joinSlash (segs.map String.data ++ [[]]) (by simp) ?hns]
    case hns =>
      intro x hx
      rcases List.mem_append.mp hx with hx | hx
      · exact hnoslash x hx
      · simp at hx; subst hx; intro c hc; simp at hc
    rw [List.filter_append, good_filter_eq_self segs hgood]
    rw [show List.filter (fun s => decide (s ≠ [] ∧ s ≠ ['.'])) [[]] = [] from rfl]
    rw [List.append_nil, good_fold_eq_self segs hgood]
  have hB : normalizeSegsCL (pathOfSegs segs).data = segs.map String.data :=
    normalizeSegsCL_good segs hne hgood
  show (⟨joinSlash (normalizeSegsCL (pathOfSegs segs ++ "/").data)⟩ : String) =
    ⟨joinSlash (normalizeSegsCL (pathOfSegs segs).data)⟩
  rw [hA, hB]

/-! ### The service worker's normalisation on good paths -/

theorem joinSlash_head_cons (c : Char) (t : List Char) (xss : List (List Char)) :
    (joinSlash ((c :: t) :: xss)).head? = some c := by
  cases xss <;> rfl

theorem takeWhile_append_stop (p : Char → Bool) (l : List Char)
    (hl : ∀ c ∈ l, p c = true) (c0 : Char) (r : List Char) (hc0 : p c0 = false) :
    (l ++ c0 :: r).takeWhile p = l := by
  induction l with
  | nil => simp [List.takeWhile_cons, hc0]
  | cons c t ih =>
    rw [List.cons_append, List.takeWhile_cons]
    simp only [hl c (List.mem_cons_self c t), if_true]
    rw [ih (fun c hc => hl c (List.mem_cons_of_mem _ hc))]

theorem swNormalizePath_ne (path : String) (h1 : path ≠ "") (h2 : path ≠ "/") :
    swNormalizePath path = ⟨swNormCore path.data⟩ := by
  rw [swNormalizePath, if_neg]
  simp [h1, h2]

/-- All the facts about a good joined path that `swNormCore` consumes. -/
theorem good_join_facts (segs : List String) (hne : segs ≠ [])
    (hgood : ∀ s ∈ segs, goodSeg s = true) :
    ∃ c, (joinSlash (segs.map String.data)).head? = some c ∧ c ≠ '/' ∧
      (∀ ch ∈ joinSlash (segs.map String.data), decide (ch ≠ '?' ∧ ch ≠ '#') = true) ∧
      (joinSlash (segs.map String.data)).getLast? ≠ some '/' := by
  obtain ⟨s0, rest, rfl⟩ : ∃ s0 rest, segs = s0 :: rest := by
    cases segs with
    | nil => exact absurd rfl hne
    | cons s0 rest => exact ⟨s0, rest, rfl⟩
  rcases goodSeg_spec s0 (hgood s0 (List.mem_cons_self s0 rest)) with ⟨hs0ne, hs0c, _, _⟩
  obtain ⟨c, t, hct⟩ : ∃ c t, s0.data = c :: t := by
    cases hs : s0.data with
    | nil => exact absurd hs hs0ne
    | cons c t => exact ⟨c, t, rfl⟩
  refine ⟨c, ?_, ?_, ?_, ?_⟩
  · show (joinSlash ((s0 :: rest).map String.data)).head? = some c
    rw [List.map_cons, hct]
    exact joinSlash_head_cons c t (rest.map String.data)
  · exact (hs0c c (by rw [hct]; exact List.mem_cons_self c t)).2.1
  · intro ch hch
    rcases mem_joinSlash _ ch hch with h | ⟨x, hx, hchx⟩
    · subst h; rfl
    · rcases List.mem_map.mp hx with ⟨s, hs, rfl⟩
      rcases (goodSeg_spec s (hgood s hs)).2.1 ch hchx with ⟨_, _, hq, hh⟩
      exact decide_eq_true ⟨hq, hh⟩
  · apply joinSlash_getLast_ne_slash
    · intro x hx
      rcases List.mem_map.mp hx with ⟨s, hs, rfl⟩
      exact (goodSeg_spec s (hgood s hs)).1
    · intro x hx ch hch
      rcases List.mem_map.mp hx with ⟨s, hs, rfl⟩
      exact ((goodSeg_spec s (hgood s hs)).2.1 ch hch).2.1

theorem good_path_ne_empty (segs : List String) (hne : segs ≠ [])
    (hgood : ∀ s ∈ segs, goodSeg s = true) :
    joinSlash (segs.map String.data) ≠ [] := by
  obtain ⟨c, hc, _, _, _⟩ := good_join_facts segs hne hgood
  intro h
  rw [h] at hc
  simp at hc

/-- On a good path (no leading slash, no query or fragment) the service
worker's normalisation core is the identity … -/
theorem swNormCore_good (segs : List String) (hne : segs ≠ [])
    (hgood : ∀ s ∈ segs, goodSeg s = true) :
    swNormCore (joinSlash (segs.map String.data)) = joinSlash (segs.map String.data) := by
  obtain ⟨c, hhead, hslash, hq, hlast⟩ := good_join_facts segs hne hgood
  rw [swNormCore, dropLeadingSlash,
    if_neg (by rw [hhead]; intro h; exact hslash (Option.some.inj h)),
    takeWhile_eq_self_of _ _ hq, dropTrailingSlash, if_neg hlast]

/-- … and it strips exactly the leading slash … -/
theorem swNormCore_leading (segs : List String) (hne : segs ≠ [])
    (hgood : ∀ s ∈ segs, goodSeg s = true) :
    swNormCore ('/' :: joinSlash (segs.map String.data)) =
      joinSlash (segs.map String.data) := by
  obtain ⟨c, hhead, hslash, hq, hlast⟩ := good_join_facts segs hne hgood
  rw [swNormCore, dropLeadingSlash]
  rw [List.head?_cons, if_pos rfl, List.tail_cons]
  rw [takeWhile_eq_self_of _ _ hq, dropTrailingSlash, if_neg hlast]

/-- … exactly the trailing slash … -/
theorem swNormCore_trailing (segs : List String) (hne : segs ≠ [])
    (hgood : ∀ s ∈ segs, goodSeg s = true) :
    swNormCore (joinSlash (segs.map String.data) ++ ['/']) =
      joinSlash (segs.map String.data) := by
  obtain ⟨c, hhead, hslash, hq, hlast⟩ := good_join_facts segs hne hgood
  obtain ⟨t, hJ⟩ : ∃ t, joinSlash (segs.map String.data) = c :: t := by
    cases hJ : joinSlash (segs.map String.data) with
    | nil => rw [hJ] at hhead; simp at hhead
    | cons c' t =>
      rw [hJ, List.head?_cons] at hhead
      exact ⟨t, by rw [Option.some.inj hhead]⟩
  rw [swNormCore, dropLeadingSlash]
  rw [hJ, List.cons_append, List.head?_cons,
    if_neg (by intro h; exact hslash (Option.some.inj h)), ← List.cons_append, ← hJ]
  rw [takeWhile_eq_self_of _ _ ?hq2]
  case hq2 =>
    intro ch hch
    rcases List.mem_append.mp hch with hch | hch
    · exact hq ch hch
    · simp at hch; subst hch; rfl
  rw [dropTrailingSlash, if_pos (List.getLast?_concat _), List.dropLast_concat]

/-- … and everything from the first `?` or `#` on. -/
theorem swNormCore_query (segs : List String) (hne : segs ≠ [])
    (hgood : ∀ s ∈ segs, goodSeg s = true) (q0 : Char)
    (hq0 : decide (q0 ≠ '?' ∧ q0 ≠ '#') = false) (qrest : List Char) :
    swNormCore (joinSlash (segs.map String.data) ++ q0 :: qrest) =
      joinSlash (segs.map String.data) := by
  obtain ⟨c, hhead, hslash, hq, hlast⟩ := good_join_facts segs hne hgood
  obtain ⟨t, hJ⟩ : ∃ t, joinSlash (segs.map String.data) = c :: t := by
    cases hJ : joinSlash (segs.map String.data) with
    | nil => rw [hJ] at hhead; simp at hhead
    | cons c' t =>
      rw [hJ, List.head?_cons] at hhead
      exact ⟨t, by rw [Option.some.inj hhead]⟩
  rw [swNormCore, dropLeadingSlash]
  rw [hJ, List.cons_append, List.head?_cons,
    if_neg (by intro h; exact hslash (Option.some.inj h)), ← List.cons_append, ← hJ]
  rw [takeWhile_append_stop _ _ hq q0 qrest hq0, dropTrailingSlash, if_neg hlast]

/-- `lookupPath` depends on the path only through `normalizePath`. -/
theorem lookupPath_congr (T : WispDirectory) (p1 p2 : String)
    (h : normalizePath p1 = normalizePath p2) :
    lookupPath T p1 = lookupPath T p2 := by
  rw [lookupPath, lookupPath, h]

/-- `lookupFile` depends on the path only through the service worker's
`normalizePath`. -/
theorem lookupFile_congr (T : WispDirectory) (p1 p2 : String)
    (h : swNormalizePath p1 = swNormalizePath p2) :
    lookupFile T p1 = lookupFile T p2 := by
  rw [lookupFile, lookupFile, h]

/-! ## Small facts used by the claim theorems -/

theorem fileAt_empty : ∀ p, fileAt emptyDir p = none
  | [] => rfl
  | [_] => rfl
  | _ :: _ :: _ => rfl

theorem dirAt_empty : ∀ p, p ≠ [] → dirAt emptyDir p = none
  | [], h => absurd rfl h
  | _ :: _, _ => rfl

theorem mergeDirectories_two (A B : WispDirectory) :
    mergeDirectories [some A, some B] = merge2 A B := by
  show merge2 (merge2 emptyDir A) B = merge2 A B
  rw [merge2_empty_left]

theorem mergeDirectories_three (A B C : WispDirectory) :
    mergeDirectories [some A, some B, some C] = merge2 (merge2 A B) C := by
  show merge2 (merge2 (merge2 emptyDir A) B) C = merge2 (merge2 A B) C
  rw [merge2_empty_left]

/-- Membership in the segment fold of `normalizePath`: every element was
either already accumulated or is a non-`..` input segment. -/
theorem mem_foldl_segs (l : List (List Char)) :
    ∀ (acc : List (List Char)) (s : List Char),
      s ∈ l.foldl
          (fun acc seg => if seg = ['.', '.'] then acc.dropLast else acc ++ [seg]) acc →
        s ∈ acc ∨ (s ∈ l ∧ s ≠ ['.', '.']) := by
  induction l with
  | nil => intro acc s h; exact Or.inl h
  | cons x l ih =>
    intro acc s h
    rw [List.foldl_cons] at h
    rcases ih _ s h with hs | ⟨hs, hdd⟩
    · by_cases hx : x = ['.', '.']
      · rw [if_pos hx] at hs
        exact Or.inl ((List.dropLast_sublist acc).subset hs)
      · rw [if_neg hx] at hs
        rcases List.mem_append.mp hs with hs | hs
        · exact Or.inl hs
        · simp only [List.mem_singleton] at hs
          subst hs
          exact Or.inr ⟨List.mem_cons_self s l, hx⟩
    · exact Or.inr ⟨List.mem_cons_of_mem x hs, hdd⟩

/-- Disjointness of file paths between two trees, in the words of the spec:
no path is a file in one tree and a file or a directory in the other. -/
def FileDisjoint (a b : WispDirectory) : Prop :=
  ∀ p : List String,
    ((fileAt a p).isSome → fileAt b p = none ∧ dirAt b p = none) ∧
    ((fileAt b p).isSome → fileAt a p = none ∧ dirAt a p = none)

/-! ## Claim C2 -/

/-- C2 — Directory Merge override semantics: at every path,
`mergeDirectories` holds exactly the file entry of the last argument tree
that defines a file at that path (`findSome?` over the reversed list is the
last such tree), and every subdirectory name present in any input appears
as the recursive `mergeDirectories` of all the inputs' subtrees of that
name — never a wholesale replacement by a later tree. -/
theorem c2_merge_override_semantics (ds : List WispDirectory) :
    (∀ p : List String,
      fileAt (mergeDirectories (ds.map some)) p =
        ds.reverse.findSome? (fun d => fileAt d p)) ∧
    (∀ name : String,
      alookup name (mergeDirectories (ds.map some)).dirsL =
        match ds.filterMap (fun d => alookup name d.dirsL) with
        | [] => none
        | v :: vs => some (mergeDirectories ((v :: vs).map some))) := by
  constructor
  · intro p
    rw [mergeDirectories_map_some, fileAt_foldl_merge2, fileAt_empty,
      foldl_orElse_reverse]
    cases ds.reverse.findSome? (fun d => fileAt d p) <;> rfl
  · intro name
    rw [mergeDirectories_map_some, dirsLookup_foldl_merge2]
    have hempty : alookup name emptyDir.dirsL = none := rfl
    rw [hempty]
    have hfold : ds.foldl (fun r d => combineO r (alookup name d.dirsL)) none =
        (ds.map (fun d => alookup name d.dirsL)).foldl combineO none := by
      rw [List.foldl_map]
    rw [hfold, foldl_combineO_none]
    have hfm : (ds.map (fun d => alookup name d.dirsL)).filterMap id =
        ds.filterMap (fun d => alookup name d.dirsL) := by
      rw [List.filterMap_map]
      rfl
    rw [hfm]
    cases hc : ds.filterMap (fun d => alookup name d.dirsL) with
    | nil => rfl
    | cons v vs =>
      show some (vs.foldl merge2 v) = some (mergeDirectories ((v :: vs).map some))
      rw [mergeDirectories_map_some, foldl_merge2_cons]

/-! ## Claim C3 -/

/-- C3 — grouping and disjoint commutativity of the merge:
`mergeDirectories(A, B, C)` equals `mergeDirectories(mergeDirectories(A, B), C)`
and `mergeDirectories(A, mergeDirectories(B, C))` (structural equality, key
order included); and when no path is a file in one tree and a file or
directory in the other, `mergeDirectories(A, B)` and `mergeDirectories(B, A)`
are equal as JavaScript objects (`dirEquiv`: deep equality, which does not
observe key insertion order). -/
theorem c3_assoc_and_disjoint_comm :
    (∀ A B C : WispDirectory,
      mergeDirectories [some A, some B, some C] =
        mergeDirectories [some (mergeDirectories [some A, some B]), some C] ∧
      mergeDirectories [some A, some B, some C] =
        mergeDirectories [some A, some (mergeDirectories [some B, some C])]) ∧
    (∀ A B : WispDirectory, FileDisjoint A B →
      dirEquiv (mergeDirectories [some A, some B]) (mergeDirectories [some B, some A])) := by
  constructor
  · intro A B C
    constructor
    · rw [mergeDirectories_three, mergeDirectories_two, mergeDirectories_two]
    · rw [mergeDirectories_three, mergeDirectories_two, mergeDirectories_two,
        merge2_assoc]
  · intro A B hd
    rw [mergeDirectories_two, mergeDirectories_two]
    constructor
    · intro p
      rw [fileAt_merge2, fileAt_merge2]
      rcases hd p with ⟨hab, hba⟩
      cases ha : fileAt A p with
      | none => cases hb : fileAt B p <;> rfl
      | some fa =>
        have := (hab (by rw [ha]; rfl)).1
        rw [this]
        rfl
    · intro p
      rw [flagsAt_merge2, flagsAt_merge2]
      cases flagsAt A p with
      | none => cases flagsAt B p <;> rfl
      | some x =>
        cases flagsAt B p with
        | none => rfl
        | some y =>
          show some (x.1 || y.1, x.2 || y.2) = some (y.1 || x.1, y.2 || x.2)
          rw [Bool.or_comm x.1 y.1, Bool.or_comm x.2 y.2]

/-- C3 (witness): a concrete disjoint pair — the empty tree and a tree with
one root file — on which the commutativity half applies. -/
theorem c3_assoc_and_disjoint_comm_witness :
    FileDisjoint emptyDir (WispDirectory.mk (some [("y", ⟨"cid-y", none, none⟩)]) none) ∧
      dirEquiv
        (mergeDirectories [some emptyDir,
          some (WispDirectory.mk (some [("y", ⟨"cid-y", none, none⟩)]) none)])
        (mergeDirectories [some (WispDirectory.mk (some [("y", ⟨"cid-y", none, none⟩)]) none),
          some emptyDir]) := by
  have hdisj : FileDisjoint emptyDir
      (WispDirectory.mk (some [("y", ⟨"cid-y", none, none⟩)]) none) := by
    intro p
    constructor
    · intro h
      rw [fileAt_empty] at h
      simp at h
    · intro h
      refine ⟨fileAt_empty p, ?_⟩
      cases p with
      | nil => simp [fileAt] at h
      | cons n t => exact dirAt_empty (n :: t) (by simp)
  exact ⟨hdisj, c3_assoc_and_disjoint_comm.2 emptyDir _ hdisj⟩

/-! ## Claim C8 -/

/-- C8 (counterexample): `normalizePath` is not idempotent on every string.
`"/ a"` trims to itself (the leading character is `/`), splits into the
segment `" a"`, and normalises to `" a"`; a second pass trims the leading
space away, giving `"a"`. -/
theorem c8_counterexample :
    normalizePath (normalizePath "/ a") ≠ normalizePath "/ a" := by decide

/-- C8 (amended) — `normalizePath` is idempotent on every string whose
normal form carries no leading or trailing whitespace (equivalently: whose
normal form is its own trim); segment-boundary whitespace protected by a
slash, as in `"/ a"`, is the only way idempotence fails.  The two concrete
examples of the claim hold. -/
theorem c8_normalizePath_idempotent :
    (∀ p : String, trimJS (normalizePath p).data = (normalizePath p).data →
      normalizePath (normalizePath p) = normalizePath p) ∧
    normalizePath "/a/../b/" = "b" ∧ normalizePath "a/./b" = "a/b" := by
  refine ⟨?_, by decide, by decide⟩
  intro p htrim
  have hdata : (normalizePath p).data = joinSlash (normalizeSegsCL p.data) := rfl
  set R := normalizeSegsCL p.data with hR
  have hmem : ∀ s ∈ R, s ≠ [] ∧ s ≠ ['.'] ∧ s ≠ ['.', '.'] ∧ ∀ c ∈ s, c ≠ '/' := by
    intro s hs
    rw [hR, normalizeSegsCL] at hs
    rcases mem_foldl_segs _ [] s hs with h | ⟨hmemf, hdd⟩
    · simp at h
    · have hpred := List.of_mem_filter hmemf
      have hsplit := List.mem_of_mem_filter hmemf
      rcases of_decide_eq_true hpred with ⟨h1, h2⟩
      exact ⟨h1, h2, hdd,
        splitOnChar_mem_no_sep '/' (trimJS p.data) s hsplit⟩
  by_cases hne : R = []
  · rw [hne] at hdata
    have h0 : normalizePath p = "" := String.ext hdata
    rw [h0]
    rfl
  · have hnos : ∀ s ∈ R, ∀ c ∈ s, c ≠ '/' := fun s hs => (hmem s hs).2.2.2
    have htrim' : trimJS (joinSlash R) = joinSlash R := by
      rw [← hdata]; exact htrim
    have hA : normalizeSegsCL (joinSlash R) = R := by
      rw [normalizeSegsCL, htrim', splitOnChar_joinSlash R hne hnos]
      have hfilter : R.filter (fun s => decide (s ≠ [] ∧ s ≠ ['.'])) = R :=
        List.filter_eq_self.mpr
          (fun s hs => decide_eq_true ⟨(hmem s hs).1, (hmem s hs).2.1⟩)
      rw [hfilter, foldl_segs_no_dotdot R (fun s hs => (hmem s hs).2.2.1) []]
      simp
    show (⟨joinSlash (normalizeSegsCL (normalizePath p).data)⟩ : String) = _
    rw [hdata, hA, ← hdata]

/-- C8 (witness): the hypothesis holds and the amended theorem applies at
the concrete path `"x/y"`. -/
theorem c8_normalizePath_idempotent_witness :
    trimJS (normalizePath "x/y").data = (normalizePath "x/y").data ∧
      normalizePath (normalizePath "x/y") = normalizePath "x/y" :=
  ⟨by decide, c8_normalizePath_idempotent.1 "x/y" (by decide)⟩

/-! ## Claim C1 -/

/-- C1 (counterexample): the claim fails for the VFS `lookupPath` on the
query/fragment variant.  A tree mapping the file `b.html` at its root
resolves `"b.html"`, but `"b.html?x=1#y"` normalises to the segment
`"b.html?x=1#y"` — `lookupPath` does not strip queries or fragments — and
the lookup returns null instead of the file entry. -/
theorem c1_counterexample :
    lookupPath
        (WispDirectory.mk (some [("b.html", ⟨"C", some "text/html", none⟩)]) none)
        "b.html" = some (.file "C" "text/html") ∧
      lookupPath
        (WispDirectory.mk (some [("b.html", ⟨"C", some "text/html", none⟩)]) none)
        "b.html?x=1#y" = none := by
  constructor
  · decide
  · decide

theorem c1_prelim_swNormalizePath_good (segs : List String) (hne : segs ≠ [])
    (hgood : ∀ s ∈ segs, goodSeg s = true) :
    swNormalizePath (pathOfSegs segs) = pathOfSegs segs ∧
    swNormalizePath ("/" ++ pathOfSegs segs) = pathOfSegs segs ∧
    swNormalizePath (pathOfSegs segs ++ "/") = pathOfSegs segs ∧
    (∀ q : String, swNormalizePath (pathOfSegs segs ++ "?" ++ q) = pathOfSegs segs) ∧
    (∀ q : String, swNormalizePath (pathOfSegs segs ++ "#" ++ q) = pathOfSegs segs) := by
  obtain ⟨c, hhead, hslash, hq, hlast⟩ := good_join_facts segs hne hgood
  have hJne : joinSlash (segs.map String.data) ≠ [] :=
    good_path_ne_empty segs hne hgood
  obtain ⟨t, hJ⟩ : ∃ t, joinSlash (segs.map String.data) = c :: t := by
    cases hJe : joinSlash (segs.map String.data) with
    | nil => rw [hJe] at hhead; simp at hhead
    | cons c' t =>
      rw [hJe, List.head?_cons] at hhead
      exact ⟨t, by rw [Option.some.inj hhead]⟩
  have hPd : (pathOfSegs segs).data = joinSlash (segs.map String.data) := rfl
  have hP1 : pathOfSegs segs ≠ "" := by
    intro h
    exact hJne (by rw [← hPd, h])
  have hP2 : pathOfSegs segs ≠ "/" := by
    intro h
    have : joinSlash (segs.map String.data) = ['/'] := by rw [← hPd, h]
    rw [this] at hhead
    exact hslash (Option.some.inj hhead).symm
  refine ⟨?_, ?_, ?_, ?_, ?_⟩
  · rw [swNormalizePath_ne _ hP1 hP2]
    show (⟨swNormCore (joinSlash (segs.map String.data))⟩ : String) = _
    rw [swNormCore_good segs hne hgood]
    rfl
  · have hd : ("/" ++ pathOfSegs segs).data =
        '/' :: joinSlash (segs.map String.data) := by
      rw [String.data_append]; rfl
    have h1 : ("/" ++ pathOfSegs segs) ≠ "" := by
      intro h
      have := congrArg String.data h
      rw [hd] at this
      simp at this
    have h2 : ("/" ++ pathOfSegs segs) ≠ "/" := by
      intro h
      have := congrArg String.data h
      rw [hd] at this
      have : joinSlash (segs.map String.data) = [] := by
        simpa using this
      exact hJne this
    rw [swNormalizePath_ne _ h1 h2]
    show (⟨swNormCore (("/" ++ pathOfSegs segs).data)⟩ : String) = _
    rw [hd, swNormCore_leading segs hne hgood]
    rfl
  · have hd : (pathOfSegs segs ++ "/").data =
        joinSlash (segs.map String.data) ++ ['/'] := by
      rw [String.data_append]; rfl
    have h1 : (pathOfSegs segs ++ "/") ≠ "" := by
      intro h
      have := congrArg String.data h
      rw [hd] at this
      simp at this
    have h2 : (pathOfSegs segs ++ "/") ≠ "/" := by
      intro h
      have h' := congrArg String.data h
      rw [hd, hJ, List.cons_append] at h'
      have ht := List.tail_eq_of_cons_eq h'
      simp at ht
    rw [swNormalizePath_ne _ h1 h2]
    show (⟨swNormCore ((pathOfSegs segs ++ "/").data)⟩ : String) = _
    rw [hd, swNormCore_trailing segs hne hgood]
    rfl
  · intro q
    have hd : (pathOfSegs segs ++ "?" ++ q).data =
        joinSlash (segs.map String.data) ++ '?' :: q.data := by
      rw [String.data_append, String.data_append, List.append_assoc]
      rfl
    have h1 : (pathOfSegs segs ++ "?" ++ q) ≠ "" := by
      intro h
      have := congrArg String.data h
      rw [hd, hJ] at this
      simp at this
    have h2 : (pathOfSegs segs ++ "?" ++ q) ≠ "/" := by
      intro h
      have h' := congrArg String.data h
      rw [hd, hJ, List.cons_append] at h'
      have ht := List.tail_eq_of_cons_eq h'
      simp at ht
    rw [swNormalizePath_ne _ h1 h2]
    show (⟨swNormCore ((pathOfSegs segs ++ "?" ++ q).data)⟩ : String) = _
    rw [hd, swNormCore_query segs hne hgood '?' (by decide) q.data]
    rfl
  · intro q
    have hd : (pathOfSegs segs ++ "#" ++ q).data =
        joinSlash (segs.map String.data) ++ '#' :: q.data := by
      rw [String.data_append, String.data_append, List.append_assoc]
      rfl
    have h1 : (pathOfSegs segs ++ "#" ++ q) ≠ "" := by
      intro h
      have := congrArg String.data h
      rw [hd, hJ] at this
      simp at this
    have h2 : (pathOfSegs segs ++ "#" ++ q) ≠ "/" := by
      intro h
      have h' := congrArg String.data h
      rw [hd, hJ, List.cons_append] at h'
      have ht := List.tail_eq_of_cons_eq h'
      simp at ht
    rw [swNormalizePath_ne _ h1 h2]
    show (⟨swNormCore ((pathOfSegs segs ++ "#" ++ q).data)⟩ : String) = _
    rw [hd, swNormCore_query segs hne hgood '#' (by decide) q.data]
    rfl

/-- C1 (amended) — path-variant invariance of the lookups, for paths built
from well-behaved segments (non-empty, no `/` `?` `#`, no whitespace, not
`.` or `..`): the VFS `lookupPath` is invariant under adding a leading or a
trailing slash, and the service worker's `lookupFile` is additionally
invariant under appending a query string or a fragment.  (The VFS
`lookupPath` is *not* invariant under query/fragment suffixes — see the
counterexample.) -/
theorem c1_variant_invariance (T : WispDirectory) (segs : List String)
    (hne : segs ≠ []) (hgood : ∀ s ∈ segs, goodSeg s = true) :
    (lookupPath T ("/" ++ pathOfSegs segs) = lookupPath T (pathOfSegs segs) ∧
     lookupPath T (pathOfSegs segs ++ "/") = lookupPath T (pathOfSegs segs)) ∧
    (lookupFile T ("/" ++ pathOfSegs segs) = lookupFile T (pathOfSegs segs) ∧
     lookupFile T (pathOfSegs segs ++ "/") = lookupFile T (pathOfSegs segs) ∧
     ∀ q : String,
       lookupFile T (pathOfSegs segs ++ "?" ++ q) = lookupFile T (pathOfSegs segs) ∧
       lookupFile T (pathOfSegs segs ++ "#" ++ q) = lookupFile T (pathOfSegs segs)) := by
  obtain ⟨e0, e1, e2, e3, e4⟩ := c1_prelim_swNormalizePath_good segs hne hgood
  refine ⟨⟨?_, ?_⟩, ?_, ?_, ?_⟩
  · exact lookupPath_congr T _ _ (normalizePath_leading_slash segs hne hgood)
  · exact lookupPath_congr T _ _ (normalizePath_trailing_slash segs hne hgood)
  · exact lookupFile_congr T _ _ (by rw [e1, e0])
  · exact lookupFile_congr T _ _ (by rw [e2, e0])
  · intro q
    exact ⟨lookupFile_congr T _ _ (by rw [e3 q, e0]),
      lookupFile_congr T _ _ (by rw [e4 q, e0])⟩

/-- C1 (witness): the amended invariance applied at a concrete tree and the
two-segment path `a/b.html`. -/
theorem c1_variant_invariance_witness :
    (["a", "b.html"] ≠ ([] : List String) ∧
      (∀ s ∈ ["a", "b.html"], goodSeg s = true)) ∧
    (lookupPath
        (WispDirectory.mk none (some [("a",
          WispDirectory.mk (some [("b.html", ⟨"C", some "text/html", none⟩)]) none)]))
        ("/" ++ pathOfSegs ["a", "b.html"]) =
      lookupPath
        (WispDirectory.mk none (some [("a",
          WispDirectory.mk (some [("b.html", ⟨"C", some "text/html", none⟩)]) none)]))
        (pathOfSegs ["a", "b.html"])) := by
  refine ⟨⟨by decide, by decide⟩, ?_⟩
  exact (c1_variant_invariance
    (WispDirectory.mk none (some [("a",
      WispDirectory.mk (some [("b.html", ⟨"C", some "text/html", none⟩)]) none)]))
    ["a", "b.html"] (by decide) (by decide)).1.1

/-! ## Claim C10 -/

/-- C10 — service-worker root-path lookup: for every manifest tree and every
path whose service-worker normalisation is empty, `lookupFile` answers the
root `files` entry `index.html` if present, else `index.htm`, else null —
never a directory listing; the VFS `lookupPath`, by contrast, answers the
root directory listing for the empty path on every tree. -/
theorem c10_root_lookup :
    (∀ (T : WispDirectory) (p : String), swNormalizePath p = "" →
      lookupFile T p =
        (alookup "index.html" T.filesL).orElse
          (fun _ => alookup "index.htm" T.filesL)) ∧
    (∀ T : WispDirectory,
      lookupPath T "" = some (.dir T.filesL (T.dirsL.map Prod.fst))) := by
  constructor
  · intro T p h
    rw [lookupFile, h]
    simp only [if_pos rfl]
    show (match fileAt T ["index.html"] with
      | some f => some f
      | none => fileAt T ["index.htm"]) = _
    rw [fileAt_single, fileAt_single]
    cases alookup "index.html" T.filesL <;> rfl
  · intro T
    rfl

/-- C10 (witness): applied at a concrete tree and the root path `"/"`. -/
theorem c10_root_lookup_witness :
    swNormalizePath "/" = "" ∧
      lookupFile
        (WispDirectory.mk (some [("index.html", ⟨"CI", some "text/html", none⟩)]) none) "/" =
      (alookup "index.html"
          (WispDirectory.mk (some [("index.html", ⟨"CI", some "text/html", none⟩)]) none).filesL).orElse
        (fun _ => alookup "index.htm"
          (WispDirectory.mk (some [("index.html", ⟨"CI", some "text/html", none⟩)]) none).filesL) :=
  ⟨by decide,
    c10_root_lookup.1
      (WispDirectory.mk (some [("index.html", ⟨"CI", some "text/html", none⟩)]) none) "/"
      (by decide)⟩

/-! ## The retry utility (src/utils/retry.ts) -/

/-- The thrown values `shouldRetry` distinguishes: a `TypeError` (a
network-level fetch failure), an `Error` with a numeric `status` field, or
anything else (parse and validation failures included). -/
inductive JsError where
  | typeError
  | httpError (status : Int)
  | other
deriving DecidableEq, Repr

/-- `defaultRetryOptions.shouldRetry` (retry.ts): retry on `TypeError`, and
on a numeric status that is at least 500 or equal to 429. -/
def defaultShouldRetry : JsError → Bool
  | .typeError => true
  | .httpError status => status ≥ 500 || status = 429
  | .other => false

/-- `RetryOptions` (retry.ts) with every field required, as in the merged
`{...defaultRetryOptions, ...options}`. -/
structure RetryOptions where
  maxAttempts : Nat
  initialDelay : Nat
  maxDelay : Nat
  backoffFactor : Nat
  shouldRetry : JsError → Bool

/-- `defaultRetryOptions` (retry.ts): 3 attempts, 1000 ms initial delay,
10000 ms cap, factor 2. -/
def defaultRetryOptions : RetryOptions := ⟨3, 1000, 10000, 2, defaultShouldRetry⟩

/-- `calculateDelay` (retry.ts): `min(initialDelay * backoffFactor^attempt, maxDelay)`. -/
def calculateDelay (attempt : Nat) (opts : RetryOptions) : Nat :=
  min (opts.initialDelay * opts.backoffFactor ^ attempt) opts.maxDelay

/-- The observable outcome of a `withRetry` run: the value returned or the
value thrown (`none` standing for the `undefined` rethrown when the loop
body never ran), how many times `fn` was invoked, and the delays slept
before each retry, in order. -/
structure RetryRun (α : Type) where
  result : Except (Option JsError) α
  attempts : Nat
  delays : List Nat

/-- The loop of `withRetry` (retry.ts lines 521-553).  `behavior k` is the
outcome of the k-th invocation of `fn`; `fuel` is the number of loop
iterations left (`maxAttempts - attempt`). -/
def withRetryGo (opts : RetryOptions) (behavior : Nat → Except JsError α) :
    Nat → Nat → Option JsError → RetryRun α
  | 0, attempt, lastErr => ⟨.error lastErr, attempt, []⟩
  | fuel + 1, attempt, _ =>
    match behavior attempt with
    | .ok v => ⟨.ok v, attempt + 1, []⟩
    | .error e =>
      let isLastAttempt := attempt == opts.maxAttempts - 1
      if !isLastAttempt && opts.shouldRetry e then
        let rest := withRetryGo opts behavior fuel (attempt + 1) (some e)
        ⟨rest.result, rest.attempts, calculateDelay attempt opts :: rest.delays⟩
      else ⟨.error (some e), attempt + 1, []⟩

/-- `withRetry` (retry.ts), with the wrapped function's behaviour passed as
an oracle from attempt index to outcome. -/
def withRetryModel (opts : RetryOptions) (behavior : Nat → Except JsError α) : RetryRun α :=
  withRetryGo opts behavior opts.maxAttempts 0 none

/-- The retry condition in the claim's own words: a network-level failure,
or an HTTP status that is 5xx (500–599) or 429. -/
def claimedRetryCondition : JsError → Bool
  | .typeError => true
  | .httpError s => (500 ≤ s && s ≤ 599) || s = 429
  | .other => false

/-! ## The service worker's blob fetch, cache and control channel (sw.js) -/

/-- The MIME table of the service worker's `guessMimeType` (sw.js lines
206-235). -/
def swMimeTable : List (String × String) :=
  [("html", "text/html"), ("htm", "text/html"), ("css", "text/css"),
   ("js", "application/javascript"), ("json", "application/json"),
   ("xml", "application/xml"), ("txt", "text/plain"), ("md", "text/markdown"),
   ("png", "image/png"), ("jpg", "image/jpeg"), ("jpeg", "image/jpeg"),
   ("gif", "image/gif"), ("webp", "image/webp"), ("svg", "image/svg+xml"),
   ("ico", "image/x-icon"), ("pdf", "application/pdf"), ("zip", "application/zip"),
   ("wasm", "application/wasm"), ("mp3", "audio/mpeg"), ("mp4", "video/mp4"),
   ("webm", "video/webm"), ("ogg", "audio/ogg"), ("wav", "audio/wav"),
   ("ttf", "font/ttf"), ("otf", "font/otf"), ("woff", "font/woff"),
   ("woff2", "font/woff2"), ("eot", "application/vnd.ms-fontobject")]

/-- `guessMimeType` (sw.js): the lowercased last dot-separated component,
looked up in the table, defaulting to `application/octet-stream`. -/
def guessMimeType (filename : String) : String :=
  let ext : String :=
    ⟨((splitOnChar '.' filename.data).getLast?.getD []).map Char.toLower⟩
  (alookup ext swMimeTable).getD "application/octet-stream"

/-- The base64 alphabet `[A-Za-z0-9+/]`. -/
def isB64Char (c : Char) : Bool :=
  c.isAlphanum || c = '+' || c = '/'

/-- The test `textContent.match(/^[A-Za-z0-9+/]+={0,2}$/) && textContent.length > 50`
(sw.js line 279) on the raw bytes.  A byte outside ASCII never decodes to an
alphabet character, so the regex is checked on the bytes directly; when it
matches, every byte is ASCII and the decoded string length equals the byte
length. -/
def isBase64Shaped (bytes : List Nat) : Bool :=
  let core := bytes.takeWhile (fun b => b < 128 && isB64Char (Char.ofNat b))
  let rest := bytes.drop core.length
  !core.isEmpty && rest.length ≤ 2 && rest.all (fun b => b = 61) &&
    bytes.length > 50

/-- The value of a base64 alphabet character. -/
def b64Val (c : Char) : Option Nat :=
  if 'A' ≤ c ∧ c ≤ 'Z' then some (c.toNat - 65)
  else if 'a' ≤ c ∧ c ≤ 'z' then some (c.toNat - 97 + 26)
  else if '0' ≤ c ∧ c ≤ '9' then some (c.toNat - 48 + 52)
  else if c = '+' then some 62
  else if c = '/' then some 63
  else none

/-- Decode base64 quartets; a final pair gives one byte and a final triple
two, as in the forgiving-base64 decode behind `atob`. -/
def b64Groups : List Char → Option (List Nat)
  | [] => some []
  | c1 :: c2 :: c3 :: c4 :: rest => do
    let v1 ← b64Val c1
    let v2 ← b64Val c2
    let v3 ← b64Val c3
    let v4 ← b64Val c4
    let tail ← b64Groups rest
    pure (((v1 * 4 + v2 / 16) :: (v2 % 16 * 16 + v3 / 4) :: (v3 % 4 * 64 + v4) :: tail))
  | [c1, c2] => do
    let v1 ← b64Val c1
    let v2 ← b64Val c2
    pure [v1 * 4 + v2 / 16]
  | [c1, c2, c3] => do
    let v1 ← b64Val c1
    let v2 ← b64Val c2
    let v3 ← b64Val c3
    pure [v1 * 4 + v2 / 16, v2 % 16 * 16 + v3 / 4]
  | [_] => none

/-- Strip up to two trailing `=` characters. -/
def stripTrailingEq (s : List Char) : List Char :=
  match s.reverse with
  | '=' :: '=' :: rest => rest.reverse
  | '=' :: rest => rest.reverse
  | _ => s

/-- `atob` (WHATWG forgiving-base64 decode): when the input length is a
multiple of four, up to two trailing `=` are stripped; then a remaining
`=`, or a length of 1 mod 4, is an `InvalidCharacterError` (`none`). -/
def atobDecode (s : List Char) : Option (List Nat) :=
  let s1 := if s.length % 4 = 0 then stripTrailingEq s else s
  if s1.length % 4 = 1 then none
  else if s1.any (fun c => c = '=') then none
  else b64Groups s1

/-- JavaScript truthiness of a nullable string (`null`, `undefined` and
`""` are falsy). -/
def optStrTruthy : Option String → Bool
  | none => false
  | some s => s ≠ ""

/-- The slice of service-worker state that `fetchBlobFromPDS` touches. -/
structure SWBlobState where
  pdsUrl : Option String
  did : Option String
  blobCache : List (String × List Nat)
deriving DecidableEq, Repr

/-- The observable pieces of the `Response` that `fetchBlobFromPDS` builds:
the body bytes, the `Content-Type` header and the `X-Wisp-Cache` header. -/
structure SWResponse where
  body : List Nat
  contentType : String
  cacheHeader : String
deriving DecidableEq, Repr

/-- `store.put(blob, cid)`: replace the entry if the key exists, else
append. -/
def idbPut (cache : List (String × α)) (k : String) (v : α) : List (String × α) :=
  if (alookup k cache).isSome then
    cache.map (fun p => if p.1 = k then (k, v) else p)
  else cache ++ [(k, v)]

theorem alookup_map_put (c : List (String × α)) (k : String) (v : α)
    (h : (alookup k c).isSome = true) :
    alookup k (c.map (fun p => if p.1 = k then (k, v) else p)) = some v := by
  induction c with
  | nil => simp at h
  | cons p rest ih =>
    obtain ⟨k', w⟩ := p
    by_cases hk : k' = k
    · subst hk
      simp
    · simp [hk] at h ⊢
      exact ih h

/-- After `store.put(blob, cid)` the store holds `blob` at `cid`. -/
theorem alookup_idbPut_self (c : List (String × α)) (k : String) (v : α) :
    alookup k (idbPut c k v) = some v := by
  unfold idbPut
  by_cases h : (alookup k c).isSome = true
  · rw [if_pos h]
    exact alookup_map_put c k v h
  · rw [if_neg h, alookup_append]
    rcases halt : alookup k c with _ | w
    · simp
    · exact absurd (by rw [halt]; rfl) h

/-- The decompression step of `fetchBlobFromPDS` (sw.js lines 270-306):
a blob whose bytes look like base64 text is `atob`-decoded, and a decoded
payload starting with the gzip magic `1f 8b` is gunzipped. -/
def decompressStep (gunzip : List Nat → Option (List Nat)) (raw : List Nat) :
    Except String (List Nat) :=
  if isBase64Shaped raw then
    match atobDecode (raw.map (fun b => Char.ofNat b)) with
    | none => .error "InvalidCharacterError"
    | some bytes =>
      match bytes with
      | b1 :: b2 :: _ =>
        if b1 = 31 ∧ b2 = 139 then
          match gunzip bytes with
          | some d => .ok d
          | none => .error "Failed to decompress blob data"
        else .ok bytes
      | _ => .ok bytes
  else .ok raw

/-- `fetchBlobFromPDS` (sw.js lines 243-326).  `gunzip` stands for the gzip
decompressor (`DecompressionStream`/pako — external library code, not in
this repository; `none` is a decompression failure), `network` for
`fetch(pdsUrl/xrpc/com.atproto.sync.getBlob?did=…&cid=…)` (`none` is a
non-ok response).  The returned `Bool` records whether the network was
used. -/
def fetchBlobFromPDS (gunzip : List Nat → Option (List Nat))
    (network : String → Option (List Nat)) (st : SWBlobState)
    (cid : String) (mimeType : Option String) :
    Except String (SWResponse × SWBlobState × Bool) :=
  if !optStrTruthy st.pdsUrl || !optStrTruthy st.did then
    .error "PDS or DID not configured"
  else
    match alookup cid st.blobCache with
    | some cached =>
      .ok (⟨cached, (mimeType.getD (guessMimeType cid)), "HIT"⟩, st, false)
    | none =>
      match network cid with
      | none => .error "Failed to fetch blob"
      | some raw =>
        match decompressStep gunzip raw with
        | .error msg => .error msg
        | .ok data =>
          .ok (⟨data, (mimeType.getD (guessMimeType cid)), "MISS"⟩,
            (if data.length ≤ 5 * 1024 * 1024 then
              ⟨st.pdsUrl, st.did, idbPut st.blobCache cid data⟩
            else st), true)

/-- The site-info record the service worker persists. -/
structure SiteInfoRec where
  pdsUrl : Option String
  did : Option String
  handle : Option String
  siteName : Option String
deriving DecidableEq, Repr

/-- The whole resident and durable state `handleMessage` can touch. -/
structure SWState where
  currentManifest : Option WispDirectory
  pdsUrl : Option String
  did : Option String
  currentHandle : Option String
  currentSiteName : Option String
  dbConnected : Bool
  dbManifest : Option WispDirectory
  dbSiteInfo : Option SiteInfoRec
  dbBlobs : List (String × List Nat)

/-- The four control messages (sw.js lines 740-790). -/
inductive SWMessage where
  | setManifest (manifest : WispDirectory)
      (pdsUrl did handle siteName : Option String)
  | clearManifest
  | clearCache
  | getStatus

/-- The replies posted on the message port. -/
inductive SWReply where
  | manifestSet (success : Bool)
  | manifestCleared (success : Bool)
  | cacheCleared (success : Bool)
  | status (hasManifest : Bool) (siteInfo : SiteInfoRec)
deriving DecidableEq

/-- `data.handle || null`: empty and absent both become null. -/
def orNull : Option String → Option String
  | none => none
  | some s => if s = "" then none else some s

/-- `handleMessage` (sw.js lines 740-790).  `SET_MANIFEST` replaces the
resident state and persists it (`storeManifest`/`storeSiteInfo` open the
database if needed); `CLEAR_MANIFEST` clears resident state and, when the
database handle exists, the two durable entries; `CLEAR_CACHE` clears the
blob store when the database handle exists; `GET_STATUS` reports. -/
def handleMessage (st : SWState) : SWMessage → SWState × SWReply
  | .setManifest m pu d h sn =>
    (⟨some m, pu, d, orNull h, orNull sn, true,
      some m, some ⟨pu, d, orNull h, orNull sn⟩, st.dbBlobs⟩,
     .manifestSet true)
  | .clearManifest =>
    (⟨none, none, none, none, none, st.dbConnected,
      (if st.dbConnected then none else st.dbManifest),
      (if st.dbConnected then none else st.dbSiteInfo), st.dbBlobs⟩,
     .manifestCleared true)
  | .clearCache =>
    (⟨st.currentManifest, st.pdsUrl, st.did, st.currentHandle, st.currentSiteName,
      st.dbConnected, st.dbManifest, st.dbSiteInfo,
      (if st.dbConnected then [] else st.dbBlobs)⟩,
     .cacheCleared true)
  | .getStatus =>
    (st, .status st.currentManifest.isSome
      ⟨st.pdsUrl, st.did, st.currentHandle, st.currentSiteName⟩)

/-! ## The overlay injection step (sw.js `injectOverlayScript`) -/

/-- Case-insensitive literal match: strip `pat` from the front of `l`
(ASCII case folding, as the regex `i` flag on these patterns). -/
def stripCI : List Char → List Char → Option (List Char)
  | [], l => some l
  | _ :: _, [] => none
  | p :: ps, c :: cs => if c.toLower = p.toLower then stripCI ps cs else none

/-- Case-sensitive literal match: strip `pat` from the front of `l`. -/
def stripStr : List Char → List Char → Option (List Char)
  | [], l => some l
  | _ :: _, [] => none
  | p :: ps, c :: cs => if c = p then stripStr ps cs else none

/-- `String.prototype.includes` on char lists. -/
def containsStr (pat : List Char) : List Char → Bool
  | [] => (stripStr pat ([] : List Char)).isSome
  | c :: rest => (stripStr pat (c :: rest)).isSome || containsStr pat rest

/-- One attempted match of `/<base\s+[^>]*>/i` at the head of `l`: the
literal `<base`, then at least one whitespace, then everything up to the
next `>`.  Returns the suffix after the consumed match. -/
def tryRemoveBaseAt (l : List Char) : Option (List Char) :=
  match stripCI ['<', 'b', 'a', 's', 'e'] l with
  | none => none
  | some rest =>
    match rest with
    | c :: rest2 =>
      if isJsWs c then
        match rest2.drop (rest2.takeWhile (fun x => x ≠ '>')).length with
        | '>' :: tail => some tail
        | _ => none
      else none
    | [] => none

/-- The global scan of `result.replace(/<base\s+[^>]*>/gi, '')`: fuel is
the input length (every match consumes at least one character). -/
def removeBaseTagsGo : Nat → List Char → List Char
  | 0, l => l
  | _ + 1, [] => []
  | fuel + 1, c :: rest =>
    match tryRemoveBaseAt (c :: rest) with
    | some tail => removeBaseTagsGo fuel tail
    | none => c :: removeBaseTagsGo fuel rest

def removeBaseTags (l : List Char) : List Char := removeBaseTagsGo l.length l

/-- Greedy `p*`: consume as many `p`-characters as possible, backtracking
into the continuation `k`. -/
def mStarGreedy (p : Char → Bool) : List Char → (List Char → Option α) → Option α
  | [], k => k []
  | c :: rest, k =>
    if p c then (mStarGreedy p rest k).orElse (fun _ => k (c :: rest))
    else k (c :: rest)

/-- Greedy `p+`: one mandatory `p`-character, then greedy `p*`. -/
def mPlusGreedy (p : Char → Bool) (l : List Char) (k : List Char → Option α) :
    Option α :=
  match l with
  | c :: rest => if p c then mStarGreedy p rest k else none
  | [] => none

/-- Lazy `p*?`: try the continuation first, consuming a character only on
failure. -/
def mStarLazy (p : Char → Bool) : List Char → (List Char → Option α) → Option α
  | [], k => k []
  | c :: rest, k =>
    (k (c :: rest)).orElse (fun _ =>
      if p c then mStarLazy p rest k else none)

/-- Ordered alternation of case-insensitive literals, as `(?:x|y|…)` with
the `i` flag. -/
def mAlts (pats : List (List Char)) (l : List Char) (k : List Char → Option α) :
    Option α :=
  match pats with
  | [] => none
  | p :: ps =>
    (match stripCI p l with
     | some rest => k rest
     | none => none).orElse (fun _ => mAlts ps l k)

/-- The quote class `['"]`. -/
def isQuote (c : Char) : Bool := c.toNat = 39 || c.toNat = 34

/-- The element alternatives of the path-rewrite regex, in source order. -/
def tagAlts : List (List Char) :=
  ["a".data, "link".data, "script".data, "img".data, "source".data,
   "iframe".data, "embed".data]

/-- The attribute alternatives of the path-rewrite regex, in source order. -/
def attrAlts : List (List Char) := ["href".data, "src".data, "srcset".data]

/-- One attempted match of the path-rewrite regex
`/(<(?:a|link|script|img|source|iframe|embed)\s+[^>]*?(?:href|src|srcset)\s*=\s*['"])(\/[^'"]*)(['"])/i`
at the head of `l`, with the engine's backtracking order.  On success the
payload is `(slashSuffix, path, closeQuote, rest)`: the suffix of `l`
starting at the matched `/`, the path characters after it, the closing
quote, and the suffix after the whole match. -/
def rewriteMatchAt (l : List Char) :
    Option (List Char × List Char × Char × List Char) :=
  match l with
  | '<' :: l0 =>
    mAlts tagAlts l0 (fun l1 =>
      mPlusGreedy isJsWs l1 (fun l2 =>
        mStarLazy (fun c => c ≠ '>') l2 (fun l3 =>
          mAlts attrAlts l3 (fun l4 =>
            mStarGreedy isJsWs l4 (fun l5 =>
              match l5 with
              | '=' :: l6 =>
                mStarGreedy isJsWs l6 (fun l7 =>
                  match l7 with
                  | q :: l8 =>
                    if isQuote q then
                      match l8 with
                      | '/' :: t =>
                        match t.drop (t.takeWhile (fun c => !isQuote c)).length with
                        | q2 :: rest2 =>
                          some (l8, t.takeWhile (fun c => !isQuote c), q2, rest2)
                        | [] => none
                      | _ => none
                    else none
                  | [] => none)
              | _ => none)))))
  | _ => none

/-- The global scan of the path-rewrite `replace`: each match has its
leading `/` (the first character of group 2) deleted, keeping groups 1 and
3; fuel is the input length. -/
def rewriteAbsPathsGo : Nat → List Char → List Char
  | 0, l => l
  | _ + 1, [] => []
  | fuel + 1, c :: rest =>
    match rewriteMatchAt (c :: rest) with
    | some (l8, path, q2, rest2) =>
      List.take ((c :: rest).length - l8.length) (c :: rest) ++ path ++ [q2] ++
        rewriteAbsPathsGo fuel rest2
    | none => c :: rewriteAbsPathsGo fuel rest

def rewriteAbsPaths (l : List Char) : List Char := rewriteAbsPathsGo l.length l

/-- One attempted match of `/<name[^>]*>/` at the head of `l` (`ci` is the
`i` flag): the literal `<name`, then everything up to the next `>`. -/
def tryTagOpenAt (ci : Bool) (name : List Char) (l : List Char) :
    Option (List Char) :=
  match (if ci then stripCI ('<' :: name) l else stripStr ('<' :: name) l) with
  | none => none
  | some rest =>
    match rest.drop (rest.takeWhile (fun x => x ≠ '>')).length with
    | '>' :: tail => some tail
    | _ => none

/-- `result.replace(/(<name[^>]*>)/, "$1" + ins)` for the first match, or
`none` when the regex does not match (which also models the preceding
`match`/`includes` test). -/
def replaceFirstTagOpen (ci : Bool) (name ins : List Char) :
    List Char → Option (List Char)
  | [] => none
  | c :: rest =>
    match tryTagOpenAt ci name (c :: rest) with
    | some tail =>
      some (List.take ((c :: rest).length - tail.length) (c :: rest) ++ ins ++ tail)
    | none => (replaceFirstTagOpen ci name ins rest).map (fun r => c :: r)

/-- `result.replace(pat, ins)` for a plain-string pattern: replace the
first occurrence, or `none` when there is none. -/
def replaceFirstStr (pat ins : List Char) : List Char → Option (List Char)
  | [] => (stripStr pat ([] : List Char)).map (fun tail => ins ++ tail)
  | c :: rest =>
    match stripStr pat (c :: rest) with
    | some tail => some (ins ++ tail)
    | none => (replaceFirstStr pat ins rest).map (fun r => c :: r)

/-- `injectOverlayScript` (sw.js lines 437-508).  `scriptTag` stands for
the overlay `<script>…</script>` text (`getOverlayScript` serializes a
large function — external to this model), `did` and `siteName` for the
resident globals. -/
def injectOverlayScript (scriptTag : List Char) (did siteName : Option String)
    (html : List Char) : List Char :=
  let wispDid : String := if optStrTruthy did then did.getD "" else "unknown"
  let wispSiteName : String :=
    if optStrTruthy siteName then siteName.getD "" else "site"
  let baseTagS : List Char :=
    ("<base href=\"/wisp/" ++ wispDid ++ "/" ++ wispSiteName ++ "/\">").data
  let r2 := rewriteAbsPaths (removeBaseTags html)
  let r3 :=
    match replaceFirstTagOpen true "head".data
        ('\n' :: ' ' :: ' ' :: baseTagS) r2 with
    | some r => r
    | none =>
      match replaceFirstTagOpen true "html".data
          ("\n<head>\n  ".data ++ baseTagS ++ "\n</head>".data) r2 with
      | some r => r
      | none =>
        "<!DOCTYPE html><html><head>\n  ".data ++ baseTagS ++
          "\n</head><body>".data ++ r2 ++ "</body></html>".data
  match replaceFirstStr "</body>".data (scriptTag ++ '\n' :: "</body>".data) r3 with
  | some r => r
  | none =>
    if containsStr "<body".data r3 then
      match replaceFirstTagOpen false "body".data ('\n' :: scriptTag) r3 with
      | some r => r
      | none => r3
    else r3 ++ scriptTag

/-- The number of positions where the case-insensitive text `<base` starts:
the output's count of base-tag declarations. -/
def countCI (pat : List Char) : List Char → Nat
  | [] => 0
  | c :: rest =>
    (if (stripCI pat (c :: rest)).isSome then 1 else 0) + countCI pat rest

/-! ## Claim C7 -/

/-- Exhaustive case analysis of a `withRetry` run under the default
options: at most three invocations, each non-final one a retryable
failure. -/
theorem withRetry_default_cases (b : Nat → Except JsError α) :
    (∃ v, b 0 = .ok v ∧ withRetryModel defaultRetryOptions b = ⟨.ok v, 1, []⟩) ∨
    (∃ e0, b 0 = .error e0 ∧ defaultShouldRetry e0 = false ∧
      withRetryModel defaultRetryOptions b = ⟨.error (some e0), 1, []⟩) ∨
    (∃ e0 v, b 0 = .error e0 ∧ defaultShouldRetry e0 = true ∧ b 1 = .ok v ∧
      withRetryModel defaultRetryOptions b = ⟨.ok v, 2, [1000]⟩) ∨
    (∃ e0 e1, b 0 = .error e0 ∧ defaultShouldRetry e0 = true ∧ b 1 = .error e1 ∧
      defaultShouldRetry e1 = false ∧
      withRetryModel defaultRetryOptions b = ⟨.error (some e1), 2, [1000]⟩) ∨
    (∃ e0 e1, b 0 = .error e0 ∧ defaultShouldRetry e0 = true ∧ b 1 = .error e1 ∧
      defaultShouldRetry e1 = true ∧
      withRetryModel defaultRetryOptions b =
        ⟨(b 2).mapError some, 3, [1000, 2000]⟩) := by
  rcases h0 : b 0 with e0 | v0
  case ok =>
    exact Or.inl ⟨v0, rfl, by
      simp [withRetryModel, withRetryGo, h0]⟩
  case error =>
    cases hr0 : defaultShouldRetry e0 with
    | false =>
      refine Or.inr (Or.inl ⟨e0, rfl, hr0, ?_⟩)
      simp [withRetryModel, withRetryGo, h0, hr0, defaultRetryOptions]
    | true =>
      rcases h1 : b 1 with e1 | v1
      case ok =>
        refine Or.inr (Or.inr (Or.inl ⟨e0, v1, rfl, hr0, rfl, ?_⟩))
        simp [withRetryModel, withRetryGo, h0, hr0, h1, defaultRetryOptions,
          calculateDelay]
      case error =>
        cases hr1 : defaultShouldRetry e1 with
        | false =>
          refine Or.inr (Or.inr (Or.inr (Or.inl ⟨e0, e1, rfl, hr0, rfl, hr1, ?_⟩)))
          simp [withRetryModel, withRetryGo, h0, hr0, h1, hr1,
            defaultRetryOptions, calculateDelay]
        | true =>
          refine Or.inr (Or.inr (Or.inr (Or.inr ⟨e0, e1, rfl, hr0, rfl, hr1, ?_⟩)))
          rcases h2 : b 2 with e2 | v2 <;>
            simp [withRetryModel, withRetryGo, h0, hr0, h1, hr1, h2,
              defaultRetryOptions, calculateDelay, Except.mapError]

/-- C7 (counterexample): the claim's "retried if and only if … 5xx or 429"
is false: a failure whose status is 600 — not a 5xx status and not 429,
hence one the claim says propagates immediately — is retried, because
`shouldRetry` tests `status >= 500`.  The run makes a second invocation. -/
theorem c7_counterexample :
    (withRetryModel defaultRetryOptions
      (fun k => if k = 0 then .error (.httpError 600) else .ok (0 : Nat))).attempts = 2 ∧
    claimedRetryCondition (.httpError 600) = false := by
  constructor
  · decide
  · decide

/-- C7 (amended) — retry policy under default options, with the retry
condition as the code has it (`status >= 500`, not only 500–599, or 429):
at most three invocations, at least one; every non-final attempt failed
with a network-level error or a status `>= 500` or `= 429`; an attempt that
fails retryably before the third attempt is followed by another attempt;
the outcome is the final attempt's outcome (so a non-retryable error
propagates immediately); and the delay before retry `k` is
`min(1000·2^k, 10000)` milliseconds. -/
theorem c7_retry_policy (b : Nat → Except JsError α) :
    (withRetryModel defaultRetryOptions b).attempts ≤ 3 ∧
    1 ≤ (withRetryModel defaultRetryOptions b).attempts ∧
    (∀ k, k + 1 < (withRetryModel defaultRetryOptions b).attempts →
      ∃ e, b k = .error e ∧ defaultShouldRetry e = true) ∧
    (∀ k, k + 1 < 3 → k < (withRetryModel defaultRetryOptions b).attempts →
      (∃ e, b k = .error e ∧ defaultShouldRetry e = true) →
      k + 1 < (withRetryModel defaultRetryOptions b).attempts) ∧
    (withRetryModel defaultRetryOptions b).result =
      (b ((withRetryModel defaultRetryOptions b).attempts - 1)).mapError some ∧
    (withRetryModel defaultRetryOptions b).delays =
      (List.range ((withRetryModel defaultRetryOptions b).attempts - 1)).map
        (fun k => min (1000 * 2 ^ k) 10000) := by
  rcases withRetry_default_cases b with
    ⟨v, h0, hrun⟩ | ⟨e0, h0, hr0, hrun⟩ | ⟨e0, v, h0, hr0, h1, hrun⟩ |
    ⟨e0, e1, h0, hr0, h1, hr1, hrun⟩ | ⟨e0, e1, h0, hr0, h1, hr1, hrun⟩
  · have ha : (withRetryModel defaultRetryOptions b).attempts = 1 := by rw [hrun]
    refine ⟨by omega, by omega, ?_, ?_, ?_, ?_⟩
    · intro k hk
      rw [ha] at hk
      exact absurd hk (by omega)
    · intro k _ hk hex
      rcases hex with ⟨e, he, _⟩
      rw [ha] at hk
      have hk0 : k = 0 := by omega
      subst hk0
      rw [h0] at he
      cases he
    · rw [hrun]
      simp [h0, Except.mapError]
    · rw [hrun]
      simp
  · have ha : (withRetryModel defaultRetryOptions b).attempts = 1 := by rw [hrun]
    refine ⟨by omega, by omega, ?_, ?_, ?_, ?_⟩
    · intro k hk
      rw [ha] at hk
      exact absurd hk (by omega)
    · intro k _ hk hex
      rcases hex with ⟨e, he, hre⟩
      rw [ha] at hk
      have hk0 : k = 0 := by omega
      subst hk0
      rw [h0] at he
      injection he with he'
      subst he'
      rw [hr0] at hre
      cases hre
    · rw [hrun]
      simp [h0, Except.mapError]
    · rw [hrun]
      simp
  · have ha : (withRetryModel defaultRetryOptions b).attempts = 2 := by rw [hrun]
    refine ⟨by omega, by omega, ?_, ?_, ?_, ?_⟩
    · intro k hk
      rw [ha] at hk
      have hk0 : k = 0 := by omega
      subst hk0
      exact ⟨e0, h0, hr0⟩
    · intro k hk3 hk hex
      rw [ha] at hk ⊢
      rcases (by omega : k = 0 ∨ k = 1) with rfl | rfl
      · omega
      · rcases hex with ⟨e, he, _⟩
        rw [h1] at he
        cases he
    · rw [hrun]
      simp [h1, Except.mapError]
    · rw [hrun]
      simp [List.range_succ]
  · have ha : (withRetryModel defaultRetryOptions b).attempts = 2 := by rw [hrun]
    refine ⟨by omega, by omega, ?_, ?_, ?_, ?_⟩
    · intro k hk
      rw [ha] at hk
      have hk0 : k = 0 := by omega
      subst hk0
      exact ⟨e0, h0, hr0⟩
    · intro k hk3 hk hex
      rw [ha] at hk ⊢
      rcases (by omega : k = 0 ∨ k = 1) with rfl | rfl
      · omega
      · rcases hex with ⟨e, he, hre⟩
        rw [h1] at he
        injection he with he'
        subst he'
        rw [hr1] at hre
        cases hre
    · rw [hrun]
      simp [h1, Except.mapError]
    · rw [hrun]
      simp [List.range_succ]
  · have ha : (withRetryModel defaultRetryOptions b).attempts = 3 := by rw [hrun]
    refine ⟨by omega, by omega, ?_, ?_, ?_, ?_⟩
    · intro k hk
      rw [ha] at hk
      rcases (by omega : k = 0 ∨ k = 1) with rfl | rfl
      · exact ⟨e0, h0, hr0⟩
      · exact ⟨e1, h1, hr1⟩
    · intro k hk3 hk hex
      rw [ha]
      omega
    · rw [hrun]
      simp
    · rw [hrun]
      norm_num [List.range_succ]

/-- C7 (witness): on a behaviour whose first attempt fails with a network
error, the second attempt exists and the only-if direction applies at
`k = 0`. -/
theorem c7_retry_policy_witness :
    0 + 1 < (withRetryModel defaultRetryOptions
      (fun k => if k = 0 then Except.error JsError.typeError
        else Except.ok (0 : Nat))).attempts ∧
    ∃ e, (fun k => if k = 0 then Except.error JsError.typeError
        else Except.ok (0 : Nat)) 0 = Except.error e ∧ defaultShouldRetry e = true :=
  ⟨by decide,
    (c7_retry_policy
      (fun k => if k = 0 then Except.error JsError.typeError
        else Except.ok (0 : Nat))).2.2.1 0 (by decide)⟩

/-! ## Claims C5, C6, C9 -/

/-- C5 — blob-cache admission gate: on a cache miss that succeeds,
`fetchBlobFromPDS` marks the response `MISS` and uses the network; the
final (decompressed) content is in the resulting cache exactly when its
size is at most `5*1024*1024` bytes; oversized content leaves the state
unchanged, so an immediate repeat fetch returns the same `MISS`-marked
response again. -/
theorem c5_cache_admission (gunzip : List Nat → Option (List Nat))
    (network : String → Option (List Nat)) (st : SWBlobState)
    (cid : String) (mt : Option String) (body : List Nat) (ct hdr : String)
    (st' : SWBlobState) (used : Bool)
    (hmiss : alookup cid st.blobCache = none)
    (hrun : fetchBlobFromPDS gunzip network st cid mt =
      .ok (⟨body, ct, hdr⟩, st', used)) :
    hdr = "MISS" ∧ used = true ∧
    (alookup cid st'.blobCache = some body ↔ body.length ≤ 5 * 1024 * 1024) ∧
    (5 * 1024 * 1024 < body.length →
      st' = st ∧
      fetchBlobFromPDS gunzip network st' cid mt =
        .ok (⟨body, ct, hdr⟩, st', true)) := by
  have hrun0 := hrun
  unfold fetchBlobFromPDS at hrun
  split at hrun
  · cases hrun
  · split at hrun
    case _ cached heq =>
      rw [hmiss] at heq
      cases heq
    case _ heq =>
      split at hrun
      · cases hrun
      case _ raw hnet =>
        split at hrun
        · cases hrun
        case _ data hdec =>
          rw [Except.ok.injEq, Prod.mk.injEq, Prod.mk.injEq,
            SWResponse.mk.injEq] at hrun
          obtain ⟨⟨hb, hc, hh⟩, hst, hu⟩ := hrun
          subst hb hc hh hu
          refine ⟨rfl, rfl, ?_, ?_⟩
          · subst hst
            by_cases hsz : data.length ≤ 5 * 1024 * 1024
            · simp [hsz, alookup_idbPut_self]
            · simp [hsz, hmiss]
          · intro hbig
            have hsz : ¬ data.length ≤ 5 * 1024 * 1024 := by omega
            rw [if_neg hsz] at hst
            subst hst
            exact ⟨rfl, hrun0⟩

/-- C5 (witness): a three-byte blob fetched on a cache miss is admitted to
the cache. -/
theorem c5_cache_admission_witness :
    alookup "c" (⟨some "p", some "d", []⟩ : SWBlobState).blobCache = none ∧
    alookup "c" (⟨some "p", some "d",
      [("c", [1, 2, 3])]⟩ : SWBlobState).blobCache = some [1, 2, 3] :=
  ⟨rfl,
    (c5_cache_admission (fun _ => none) (fun _ => some [1, 2, 3])
      ⟨some "p", some "d", []⟩ "c" none [1, 2, 3] "application/octet-stream"
      "MISS" ⟨some "p", some "d", [("c", [1, 2, 3])]⟩ true rfl
      rfl).2.2.1.mpr (by decide)⟩

/-- C6 — cache hit suppresses the network fetch: when the endpoint and
identity are configured and the content identifier is in the blob cache,
`fetchBlobFromPDS` returns the cached bytes with the `HIT` marker, leaves
the state unchanged, and does not use the network (the flag is `false`). -/
theorem c6_cache_hit_no_network (gunzip : List Nat → Option (List Nat))
    (network : String → Option (List Nat)) (st : SWBlobState)
    (cid : String) (mt : Option String) (bytes : List Nat)
    (hp : optStrTruthy st.pdsUrl = true) (hd : optStrTruthy st.did = true)
    (hhit : alookup cid st.blobCache = some bytes) :
    fetchBlobFromPDS gunzip network st cid mt =
      .ok (⟨bytes, mt.getD (guessMimeType cid), "HIT"⟩, st, false) := by
  simp [fetchBlobFromPDS, hp, hd, hhit]

/-- C6 (witness): a cached one-byte blob is served from the cache with the
`HIT` marker and no network use. -/
theorem c6_cache_hit_no_network_witness :
    fetchBlobFromPDS (fun _ => none) (fun _ => none)
      ⟨some "p", some "d", [("c", [7])]⟩ "c" none =
      .ok (⟨[7], "application/octet-stream", "HIT"⟩,
        ⟨some "p", some "d", [("c", [7])]⟩, false) :=
  c6_cache_hit_no_network (fun _ => none) (fun _ => none)
    ⟨some "p", some "d", [("c", [7])]⟩ "c" none [7] (by decide) (by decide)
    (by decide)

/-- C9 — `CLEAR_CACHE` frame effect: with the database handle present,
handling `CLEAR_CACHE` empties the blob store, replies success, and leaves
every other component of the state — resident manifest, endpoint, identity,
handle, site name, and the durable manifest and site-info entries —
unchanged. -/
theorem c9_clear_cache_frame (st : SWState) (h : st.dbConnected = true) :
    (handleMessage st .clearCache).2 = .cacheCleared true ∧
    (handleMessage st .clearCache).1.dbBlobs = [] ∧
    (handleMessage st .clearCache).1.currentManifest = st.currentManifest ∧
    (handleMessage st .clearCache).1.pdsUrl = st.pdsUrl ∧
    (handleMessage st .clearCache).1.did = st.did ∧
    (handleMessage st .clearCache).1.currentHandle = st.currentHandle ∧
    (handleMessage st .clearCache).1.currentSiteName = st.currentSiteName ∧
    (handleMessage st .clearCache).1.dbConnected = st.dbConnected ∧
    (handleMessage st .clearCache).1.dbManifest = st.dbManifest ∧
    (handleMessage st .clearCache).1.dbSiteInfo = st.dbSiteInfo := by
  simp [handleMessage, h]

/-- C9 (witness): on a connected state with one cached blob, the cache is
emptied. -/
theorem c9_clear_cache_frame_witness :
    (⟨none, some "p", some "d", none, none, true, none, none,
      [("c", [1])]⟩ : SWState).dbConnected = true ∧
    (handleMessage ⟨none, some "p", some "d", none, none, true, none, none,
      [("c", [1])]⟩ .clearCache).1.dbBlobs = [] :=
  ⟨rfl,
    (c9_clear_cache_frame ⟨none, some "p", some "d", none, none, true, none,
      none, [("c", [1])]⟩ rfl).2.1⟩

/-! ## Claim C4 -/

/-- C4 (counterexample, a code bug): the base-tag removal regex
`/<base\s+[^>]*>/gi` demands whitespace after `base`, so an
attribute-less `<base>` survives removal — contradicting the code's own
comment ("remove any existing base tags to avoid conflicts") — and after
the base-tag injection the output holds two base tags, not one. -/
theorem c4_counterexample :
    removeBaseTags "<base>".data = "<base>".data ∧
    countCI "<base".data
      (injectOverlayScript "<script></script>".data none none
        "<base>".data) = 2 := by
  decide

end Wisp
